import Mathlib

/-!
# CCAligner: word alignment against PocketSphinx segmentations

A shallow embedding of `src/lib_ccaligner/recognize_using_pocketsphinx.cpp`:

* `levenshtein_distance`, the two-column edit distance (lines 76-104);
* `PocketsphinxAligner::findAndSetWordTimes` (lines 106-218), the pass that walks the
  decoder's segmentation and writes times into the words of one subtitle;
* `PocketsphinxAligner::transcribe` (lines 360-420), as the sequence of calls it makes on the
  decoder, the answers of the decoder being given by oracles;
* `PocketsphinxAligner::alignWithFSG` (lines 427-506), as a walk over the subtitles with the
  answers of its collaborators attached to each of them.

Conventions of the embedding.

* A `std::string` is a `List Char`, one element per `char`; `size()` is `List.length`.
* Lengths and distances are `Nat`. Frames (`int32`), the frame rate (`int`) and times
  (`long int`) are `Int`, and stand for the values of those variables. The expression
  `sf * 1000 / frame_rate` of lines 147-148 is formed in 32-bit `int`: the product wraps to the
  range of an `int` (`wrapInt32`, what the compiled code does on signed overflow) and the
  quotient is truncated towards zero (`Int.tdiv`). The division traps when the frame rate is
  zero, or when it is -1 and the product is the least `int`: `divisionTraps` and `passTraps`
  tell when that happens, and the states of the pass are those of a run without a trap. The
  sum with the cue start is a `long int` and is taken without overflow.
* The segment iterator `ps_seg_t` is the list of the segments it yields, and the `while` loop over
  it is a left fold. Each segment carries what the loop reads from it: the word and the two frames.
* The comparison `distance < largerLength * 0.25` converts both sides to `double`; the values are
  small integers and a quarter of an integer is exact in binary floating point, so the test is
  taken over the rationals.
-/

namespace CCAligner

/-! ## Edit distance -/

/-- The function `levenshtein_distance` of the source: `previousColumn` starts as `0, 1, ..,
length2`; for each character of `firstWord` the inner loop fills `currentColumn` from left to
right and the two vectors are swapped; the result is the last entry of `previousColumn`. -/
def levenshtein_distance (firstWord secondWord : List Char) : Nat :=
  let length1 := firstWord.length
  let length2 := secondWord.length
  let currentColumn : List Nat := List.replicate (length2 + 1) 0
  let previousColumn : List Nat := List.replicate (length2 + 1) 0
  let previousColumn := (List.range (length2 + 1)).foldl
    (fun previousColumn index2 => previousColumn.set index2 index2) previousColumn
  let columns := (List.range length1).foldl
    (fun (columns : List Nat × List Nat) index1 =>
      let previousColumn := columns.2
      let currentColumn := columns.1.set 0 (index1 + 1)
      let currentColumn := (List.range length2).foldl
        (fun currentColumn index2 =>
          let compare :=
            if firstWord.getD index1 default = secondWord.getD index2 default then 0 else 1
          currentColumn.set (index2 + 1)
            (min (min (currentColumn.getD index2 0 + 1) (previousColumn.getD (index2 + 1) 0 + 1))
              (previousColumn.getD index2 0 + compare)))
        currentColumn
      (previousColumn, currentColumn))
    (currentColumn, previousColumn)
  columns.2.getD length2 0

/-- The body of the inner loop of `levenshtein_distance`, named for the proofs. -/
def levInner (firstWord secondWord : List Char) (index1 : Nat) (previousColumn : List Nat)
    (currentColumn : List Nat) (index2 : Nat) : List Nat :=
  currentColumn.set (index2 + 1)
    (min (min (currentColumn.getD index2 0 + 1) (previousColumn.getD (index2 + 1) 0 + 1))
      (previousColumn.getD index2 0 +
        if firstWord.getD index1 default = secondWord.getD index2 default then 0 else 1))

/-- The body of the outer loop of `levenshtein_distance`, named for the proofs. -/
def levOuter (firstWord secondWord : List Char) (columns : List Nat × List Nat) (index1 : Nat) :
    List Nat × List Nat :=
  (columns.2, (List.range secondWord.length).foldl
    (levInner firstWord secondWord index1 columns.2) (columns.1.set 0 (index1 + 1)))

/-- The first loop of `levenshtein_distance`, named for the proofs. -/
def levInit (length2 : Nat) : List Nat :=
  (List.range (length2 + 1)).foldl (fun previousColumn index2 => previousColumn.set index2 index2)
    (List.replicate (length2 + 1) 0)

/-! ## Edit scripts: what the distance is meant to count -/

/-- One single-character edit of a string: an insertion, a deletion or a substitution at any
position. -/
inductive EditStep : List Char → List Char → Prop
  | insert (l r : List Char) (c : Char) : EditStep (l ++ r) (l ++ c :: r)
  | delete (l r : List Char) (c : Char) : EditStep (l ++ c :: r) (l ++ r)
  | substitute (l r : List Char) (c d : Char) : EditStep (l ++ c :: r) (l ++ d :: r)

/-- The relation `EditsTo n a b`: `n` single-character edits, each of unit cost, transform `a`
into `b`. -/
inductive EditsTo : Nat → List Char → List Char → Prop
  | done (a : List Char) : EditsTo 0 a a
  | step {n : Nat} {a b c : List Char} : EditStep a b → EditsTo n b c → EditsTo (n + 1) a c

/-- The textbook recurrence for the edit distance, on the heads of the two words. It is the
yardstick between the loops of `levenshtein_distance` and the edit scripts. -/
def lev : List Char → List Char → Nat
  | [], b => b.length
  | c :: a, [] => (c :: a).length
  | c :: a, d :: b =>
    min (min (lev (c :: a) b + 1) (lev a (d :: b) + 1)) (lev a b + if c = d then 0 else 1)
termination_by a b => a.length + b.length

/-- The column `col` holds the distances from the first `i` characters of `a` to every prefix
of `b`. -/
def IsColumn (a b : List Char) (i : Nat) (col : List Nat) : Prop :=
  col.length = b.length + 1 ∧ ∀ j, j ≤ b.length → col.getD j 0 = lev (a.take i) (b.take j)

/-! ## Data of one alignment pass -/

/-- Modelled from the spec: the per-word record held by a `SubtitleItem`, whose class is declared
outside `src/`. A word has its text, a recognised flag, and a start and an end time in
milliseconds. -/
structure Word where
  text : List Char
  recognised : Bool
  startTime : Int
  endTime : Int
deriving DecidableEq

/-- Modelled from the spec: the part of `SubtitleItem` (declared outside `src/`) that
`findAndSetWordTimes` reads and writes: the start time of the cue and its ordered words. -/
structure SubtitleItem where
  startTime : Int
  words : List Word
deriving DecidableEq

/-- Apply `f` to the word at `wordIndex`, leaving the list alone when the index is out of range. -/
def modifyWordAt (f : Word → Word) : List Word → Nat → List Word
  | [], _ => []
  | w :: ws, 0 => f w :: ws
  | w :: ws, n + 1 => w :: modifyWordAt f ws n

/-- Modelled from the spec: `SubtitleItem::getStartTime`, the cue's start in milliseconds. -/
def SubtitleItem.getStartTime (sub : SubtitleItem) : Int := sub.startTime

/-- Modelled from the spec: `SubtitleItem::getIndividualWords`, the texts of the words in order. -/
def SubtitleItem.getIndividualWords (sub : SubtitleItem) : List (List Char) :=
  sub.words.map Word.text

/-- Modelled from the spec: `SubtitleItem::setWordRecognisedStatusByIndex`, which sets the
recognised flag of one word. -/
def SubtitleItem.setWordRecognisedStatusByIndex (sub : SubtitleItem) (status : Bool)
    (wordIndex : Nat) : SubtitleItem :=
  ⟨sub.startTime,
    modifyWordAt (fun w => ⟨w.text, status, w.startTime, w.endTime⟩) sub.words wordIndex⟩

/-- Modelled from the spec: `SubtitleItem::setWordTimesByIndex`, which sets the start and end time
of one word. -/
def SubtitleItem.setWordTimesByIndex (sub : SubtitleItem) (startTime endTime : Int)
    (wordIndex : Nat) : SubtitleItem :=
  ⟨sub.startTime,
    modifyWordAt (fun w => ⟨w.text, w.recognised, startTime, endTime⟩) sub.words wordIndex⟩

/-- One segment of the decoder's segmentation: `ps_seg_word` and the frames of `ps_seg_frames`. -/
structure Segment where
  word : List Char
  sf : Int
  ef : Int
deriving DecidableEq

/-- The `recognisedBlock` returned by the pass: three parallel vectors. -/
structure recognisedBlock where
  recognisedString : List (List Char)
  recognisedWordStartTimes : List Int
  recognisedWordEndTimes : List Int
deriving DecidableEq

/-- The variables that live across iterations of the `while` loop of `findAndSetWordTimes`. -/
structure PassState where
  lastWordFoundAtIndex : Int
  currentBlock : recognisedBlock
  sub : SubtitleItem
deriving DecidableEq

/-! ## The pass -/

/-- The `::tolower` of the C locale, applied by `std::transform` to every character. -/
def tolower (c : Char) : Char := c.toLower

/-- The local vector `words` of the source: the words of the subtitle, lowercased. -/
def lowercaseWords (sub : SubtitleItem) : List (List Char) :=
  sub.getIndividualWords.map (fun eachWord => eachWord.map tolower)

/-- The guard of line 185: utterance markers, silence, and words that start with a bracket.
Indexing a `std::string` at its size gives the null character, so an empty word passes. -/
def skipSearchingThisWord (recognisedWord : List Char) : Bool :=
  recognisedWord == "<s>".toList || recognisedWord == "</s>".toList
    || recognisedWord.head? == some '[' || recognisedWord == "<sil>".toList

/-- The test of line 196: `distance < largerLength * 0.25`. -/
def atLeast75PercentMatch (distance largerLength : Nat) : Bool :=
  decide ((distance : ℚ) < (largerLength : ℚ) * 0.25)

/-- The test the loop body applies to one candidate: lines 193-196. -/
def possibleMatch (word recognisedWord : List Char) : Bool :=
  let distance := levenshtein_distance word recognisedWord
  let largerLength :=
    if word.length > recognisedWord.length then word.length else recognisedWord.length
  atLeast75PercentMatch distance largerLength

/-- The `for` loop of lines 188-211 as a search: the candidates are the words from `wordIndex`
on; the loop breaks without a match when the index passes `blockSize + searchWindowSize`, and
breaks with a match at the first candidate that passes the test. -/
def searchWords (recognisedWord : List Char) (blockSize searchWindowSize : Nat) :
    List (List Char) → Nat → Option Nat
  | [], _ => none
  | word :: rest, wordIndex =>
    if wordIndex > blockSize + searchWindowSize then none
    else if possibleMatch word recognisedWord then some wordIndex
    else searchWords recognisedWord blockSize searchWindowSize rest (wordIndex + 1)

/-- The index the loop body finds for one segment, if any: nothing for a skipped word, else the
search from `lastWordFoundAtIndex + 1`. The block already holds the current segment when the
search runs, hence the `+ 1`. -/
def matchedIndex (words : List (List Char)) (s : PassState) (seg : Segment) : Option Nat :=
  let searchWindowSize := 3
  if skipSearchingThisWord seg.word then none
  else
    let first := (s.lastWordFoundAtIndex + 1).toNat
    searchWords seg.word (s.currentBlock.recognisedString.length + 1) searchWindowSize
      (words.drop first) first

/-- The value of a 32-bit `int` after signed overflow: the two's complement wrap into
`-2147483648 .. 2147483647`. -/
def wrapInt32 (x : Int) : Int :=
  (x + 2147483648) % 4294967296 - 2147483648

/-- Whether the division in `frame * 1000 / frame_rate` traps: the divisor is zero, or it is -1
and the wrapped product is the least `int`. -/
def divisionTraps (frame frame_rate : Int) : Bool :=
  decide (frame_rate = 0) || (decide (wrapInt32 (frame * 1000) = -2147483648) &&
    decide (frame_rate = -1))

/-- The expression `frame * 1000 / frame_rate` of lines 147-148 in `int` arithmetic: the
product wraps to 32 bits and the quotient truncates towards zero. Where the division traps the
code gives no value, and the value here stands for nothing. -/
def frameOffsetMs (frame frame_rate : Int) : Int :=
  (wrapInt32 (frame * 1000)).tdiv frame_rate

/-- Whether a pass over `segments` ends in a trap: both divisions run for every segment,
before the guard and the search, so the pass traps exactly when one of them does. -/
def passTraps (frame_rate : Int) (segments : List Segment) : Bool :=
  segments.any (fun seg => divisionTraps seg.sf frame_rate || divisionTraps seg.ef frame_rate)

/-- Whether a value lies in the range of a 32-bit `int`. -/
def fitsInt32 (x : Int) : Bool :=
  decide (-2147483648 ≤ x) && decide (x ≤ 2147483647)

/-- One iteration of the `while` loop of `findAndSetWordTimes` (lines 127-214), in a run
without a trap. -/
def processSegment (frame_rate : Int) (words : List (List Char)) (s : PassState)
    (seg : Segment) : PassState :=
  let recognisedWord := seg.word
  let startTime := s.sub.getStartTime + frameOffsetMs seg.sf frame_rate
  let endTime := s.sub.getStartTime + frameOffsetMs seg.ef frame_rate
  let currentBlock : recognisedBlock :=
    ⟨s.currentBlock.recognisedString ++ [recognisedWord],
      s.currentBlock.recognisedWordStartTimes ++ [startTime],
      s.currentBlock.recognisedWordEndTimes ++ [endTime]⟩
  match matchedIndex words s seg with
  | none => ⟨s.lastWordFoundAtIndex, currentBlock, s.sub⟩
  | some wordIndex =>
    ⟨(wordIndex : Int), currentBlock,
      (s.sub.setWordRecognisedStatusByIndex true wordIndex).setWordTimesByIndex
        startTime endTime wordIndex⟩

/-- The state at the head of the `while` loop: nothing found, an empty block. -/
def initialState (sub : SubtitleItem) : PassState :=
  ⟨-1, ⟨[], [], []⟩, sub⟩

/-- The state after the loop has consumed `segments`. -/
def runPass (frame_rate : Int) (segments : List Segment) (sub : SubtitleItem) : PassState :=
  segments.foldl (processSegment frame_rate (lowercaseWords sub)) (initialState sub)

/-- The method `PocketsphinxAligner::findAndSetWordTimes`: the block it returns, and the subtitle
it has written to through the pointer `sub`. -/
def findAndSetWordTimes (frame_rate : Int) (segments : List Segment) (sub : SubtitleItem) :
    recognisedBlock × SubtitleItem :=
  let s := runPass frame_rate segments sub
  (s.currentBlock, s.sub)

/-- The index found for each segment of a pass, in segment order, starting from state `s`. -/
def matchTrace (frame_rate : Int) (words : List (List Char)) :
    PassState → List Segment → List (Option Nat)
  | _, [] => []
  | s, seg :: rest =>
    matchedIndex words s seg :: matchTrace frame_rate words (processSegment frame_rate words s seg) rest

/-- The indices found for the segments of a whole pass of `findAndSetWordTimes`. -/
def passMatches (frame_rate : Int) (segments : List Segment) (sub : SubtitleItem) :
    List (Option Nat) :=
  matchTrace frame_rate (lowercaseWords sub) (initialState sub) segments


/-- The invariant the loop of `findAndSetWordTimes` keeps, relative to the subtitle `sub` the
pass started from: the cue start and the number of words are as at the start, the last found
index is at least `-1` and at most the number of segments in the block plus three. -/
def PassInvariant (sub : SubtitleItem) (s : PassState) : Prop :=
  s.sub.startTime = sub.startTime ∧ s.sub.words.length = sub.words.length ∧
    -1 ≤ s.lastWordFoundAtIndex ∧
      s.lastWordFoundAtIndex ≤ (s.currentBlock.recognisedString.length : Int) + 3


/-! ## Auxiliary notions used to state the claims -/

/-- The number of segments among the first `k` of a pass for which an index was found. -/
def matchedBefore (trace : List (Option Nat)) (k : Nat) : Nat :=
  ((trace.take k).filter Option.isSome).length

/-- The segments with every word replaced by its lowercase form. -/
def lowercaseSegments (segments : List Segment) : List Segment :=
  segments.map (fun seg => ⟨seg.word.map tolower, seg.sf, seg.ef⟩)

/-- The subtitle with the text of every word replaced by its lowercase form. -/
def lowercaseSub (sub : SubtitleItem) : SubtitleItem :=
  ⟨sub.startTime,
    sub.words.map (fun w => ⟨w.text.map tolower, w.recognised, w.startTime, w.endTime⟩)⟩

/-- A subtitle of one bracketed word, as subtitles for the hard of hearing have them. -/
def musicSub : SubtitleItem := ⟨0, [⟨"[music]".toList, false, 0, 2000⟩]⟩

/-- A subtitle of five words, the last of which is far from the first. -/
def helloSub : SubtitleItem :=
  ⟨0, [⟨"a".toList, false, 0, 100⟩, ⟨"b".toList, false, 100, 200⟩, ⟨"c".toList, false, 200, 300⟩,
    ⟨"d".toList, false, 300, 400⟩, ⟨"hello".toList, false, 400, 500⟩]⟩

/-- The subtitle of the example in the source: why would you use tomato. -/
def tomatoSub : SubtitleItem :=
  ⟨19320, [⟨"why".toList, false, 19320, 19667⟩, ⟨"would".toList, false, 19667, 20014⟩,
    ⟨"you".toList, false, 20014, 20361⟩, ⟨"use".toList, false, 20361, 20708⟩,
    ⟨"tomato".toList, false, 20708, 21056⟩]⟩

/-- The segments of the example in the source, in which the first word is not recognised. -/
def tomatoSegments : List Segment :=
  [⟨"would".toList, 30, 55⟩, ⟨"you".toList, 56, 70⟩, ⟨"use".toList, 71, 95⟩,
    ⟨"tomato".toList, 96, 150⟩]

/-- The segments of a decode in which every word of `tomatoSub` is recognised. -/
def whyTomatoSegments : List Segment :=
  ⟨"why".toList, 5, 29⟩ :: tomatoSegments

/-- A subtitle of the single word why. -/
def whySub : SubtitleItem := ⟨0, [⟨"why".toList, false, 0, 500⟩]⟩

/-- A segmentation of one segment whose end frame, times 1000, is beyond the range of `int`. -/
def lateSegments : List Segment := [⟨"why".toList, 2147483, 2147484⟩]

/-- A segmentation of one segment whose frames, times 1000, are beyond the range of `int`. -/
def veryLateSegments : List Segment := [⟨"why".toList, 3000000, 3000001⟩]

/-! ## Continuous transcription -/

/-- The calls `transcribe` makes, in order: on the decoder, and on the SRT printer. A call of
`ps_process_raw` carries the offset of its `sample` pointer from the start of the buffer and
the number of samples it passes. -/
inductive DecoderCall where
  | ps_start_utt
  | ps_process_raw (offset length : Nat)
  | ps_get_in_speech
  | ps_end_utt
  | ps_get_hyp
  | printRecognisedWordAsSRT
deriving DecidableEq

/-- The `for` loop of `transcribe` (lines 374-406) over the remaining values of `i`, with the
pointer offset `sample` and the flag `utt_started` as they stand at the head of the loop. It
gives the flag after the loop and the calls made. The decoder is an oracle: `in_speech i` is
what `ps_get_in_speech` answers after chunk `i`, and `hyp i` tells whether `ps_get_hyp`
returns a hypothesis when called in iteration `i`. -/
def transcribeLoop (numberOfPartitions remainingSamples : Nat) (in_speech hyp : Nat → Bool) :
    List Nat → Nat → Bool → Bool × List DecoderCall
  | [], _, utt_started => (utt_started, [])
  | i :: rest, sample, utt_started =>
    let feed :=
      if i = numberOfPartitions then DecoderCall.ps_process_raw sample remainingSamples
      else DecoderCall.ps_process_raw sample 2048
    let utt_started := if in_speech i && !utt_started then true else utt_started
    if !in_speech i && utt_started then
      let r := transcribeLoop numberOfPartitions remainingSamples in_speech hyp rest
        (sample + 2048) false
      (r.1, [feed, DecoderCall.ps_get_in_speech, DecoderCall.ps_end_utt,
          DecoderCall.ps_get_hyp] ++
        (if hyp i then [DecoderCall.printRecognisedWordAsSRT] else []) ++
        [DecoderCall.ps_start_utt] ++ r.2)
    else
      let r := transcribeLoop numberOfPartitions remainingSamples in_speech hyp rest
        (sample + 2048) utt_started
      (r.1, [feed, DecoderCall.ps_get_in_speech] ++ r.2)

/-- The calls after the loop of `transcribe` (lines 408-418): the utterance is ended, and its
hypothesis is fetched only when an utterance had started. -/
def transcribeEnd (numberOfPartitions : Nat) (hyp : Nat → Bool) (utt_started : Bool) :
    List DecoderCall :=
  DecoderCall.ps_end_utt ::
    (if utt_started then
      DecoderCall.ps_get_hyp ::
        (if hyp (numberOfPartitions + 1) then [DecoderCall.printRecognisedWordAsSRT] else [])
    else [])

/-- The method `PocketsphinxAligner::transcribe` on a buffer of `samplesSize` samples: the
calls it makes, in order. -/
def transcribe (samplesSize : Nat) (in_speech hyp : Nat → Bool) : List DecoderCall :=
  let numberOfPartitions := samplesSize / 2048
  let remainingSamples := samplesSize % 2048
  let r := transcribeLoop numberOfPartitions remainingSamples in_speech hyp
    (List.range (numberOfPartitions + 1)) 0 false
  DecoderCall.ps_start_utt :: (r.2 ++ transcribeEnd numberOfPartitions hyp r.1)

/-- The chunks fed to the decoder, in order: offset and length of each `ps_process_raw`. -/
def fedChunks : List DecoderCall → List (Nat × Nat)
  | [] => []
  | DecoderCall.ps_process_raw offset length :: rest => (offset, length) :: fedChunks rest
  | _ :: rest => fedChunks rest

/-- The chunk numbers, counted from one, at which the classification goes from speech to
silence, followed by the number of the last chunk when the stream ends in speech. The flag
`previous` is the classification of the chunk before the list, `chunk` its number. -/
def closePoints : Bool → Nat → List Bool → List Nat
  | previous, chunk, [] => if previous then [chunk] else []
  | previous, chunk, b :: rest =>
    (if previous && !b then [chunk + 1] else []) ++ closePoints b (chunk + 1) rest

/-- The number of runs of speech that start in a list of classifications: a run starts at
each speech chunk whose predecessor is not speech. -/
def countRunStarts : Bool → List Bool → Nat
  | _, [] => 0
  | previous, b :: rest => (if b && !previous then 1 else 0) + countRunStarts b rest

/-- The number of maximal runs of consecutive speech chunks in a classification. -/
def speechRuns (classification : List Bool) : Nat :=
  countRunStarts false classification

/-- One utterance closed by `transcribe`: the number of chunks fed when it is closed, whether
the hypothesis was emitted with `printRecognisedWordAsSRT`, and whether a new utterance was
started after it. -/
structure ClosedUtterance where
  chunk : Nat
  emitted : Bool
  restarted : Bool
deriving DecidableEq

/-- Whether the next call is `printRecognisedWordAsSRT`. -/
def nextIsPrint : List DecoderCall → Bool
  | DecoderCall.printRecognisedWordAsSRT :: _ => true
  | _ => false

/-- Whether the next call is `ps_start_utt`. -/
def nextIsStart : List DecoderCall → Bool
  | DecoderCall.ps_start_utt :: _ => true
  | _ => false

/-- The utterances closed in a sequence of calls. A close is a `ps_end_utt` followed by
`ps_get_hyp`; it is emitted when `printRecognisedWordAsSRT` comes next, and restarted when
`ps_start_utt` comes after that. The number `fed` counts the chunks fed before. -/
def closedUtterances : List DecoderCall → Nat → List ClosedUtterance
  | [], _ => []
  | DecoderCall.ps_process_raw _ _ :: rest, fed => closedUtterances rest (fed + 1)
  | DecoderCall.ps_end_utt :: DecoderCall.ps_get_hyp :: rest, fed =>
    ⟨fed, nextIsPrint rest, nextIsStart (if nextIsPrint rest then rest.tail else rest)⟩ ::
      closedUtterances rest fed
  | _ :: rest, fed => closedUtterances rest fed

/-- The closes a classification calls for: at each change from speech to silence, an utterance
closed at that chunk, emitted when the decoder has a hypothesis there, and restarted; and at
the end of a stream that ends in speech, a last utterance closed, emitted when the decoder has
a hypothesis, and not restarted. The oracle `hyp` is asked at the number of chunks fed before
the chunk at hand. -/
def expectedCloses (hyp : Nat → Bool) : Bool → Nat → List Bool → List ClosedUtterance
  | previous, chunk, [] => if previous then [⟨chunk, hyp chunk, false⟩] else []
  | previous, chunk, b :: rest =>
    (if previous && !b then [⟨chunk + 1, hyp chunk, true⟩] else []) ++
      expectedCloses hyp b (chunk + 1) rest

/-- The protocol of the decoder along a sequence of calls, `isOpen` telling whether an
utterance is open: audio is fed and the speech state is read inside an utterance, a
hypothesis is fetched and printed outside one, and starts and ends alternate. The result is
the state at the end, or nothing when a call comes out of turn. -/
def utteranceProtocol : List DecoderCall → Bool → Option Bool
  | [], isOpen => some isOpen
  | DecoderCall.ps_start_utt :: rest, isOpen =>
    if isOpen then none else utteranceProtocol rest true
  | DecoderCall.ps_end_utt :: rest, isOpen =>
    if isOpen then utteranceProtocol rest false else none
  | DecoderCall.ps_process_raw _ _ :: rest, isOpen =>
    if isOpen then utteranceProtocol rest true else none
  | DecoderCall.ps_get_in_speech :: rest, isOpen =>
    if isOpen then utteranceProtocol rest true else none
  | DecoderCall.ps_get_hyp :: rest, isOpen =>
    if isOpen then none else utteranceProtocol rest false
  | DecoderCall.printRecognisedWordAsSRT :: rest, isOpen =>
    if isOpen then none else utteranceProtocol rest false

/-- Whether every chunk fed is classified: each `ps_process_raw` is followed at once by
`ps_get_in_speech`. -/
def everyChunkIsClassified : List DecoderCall → Bool
  | [] => true
  | DecoderCall.ps_process_raw _ _ :: DecoderCall.ps_get_in_speech :: rest =>
    everyChunkIsClassified rest
  | DecoderCall.ps_process_raw _ _ :: _ => false
  | _ :: rest => everyChunkIsClassified rest

/-! ## Forced alignment, cue by cue -/

/-- One subtitle as `alignWithFSG` meets it, with what its collaborators answer for it:
whether the dialogue is empty, the frame rate of the configuration `cmd_ln_init` builds (or
nothing when it returns `NULL`), and the segmentation behind the hypothesis of `ps_get_hyp`
(or nothing when it returns `NULL`). -/
structure FsgCue where
  sub : SubtitleItem
  dialogueEmpty : Bool
  subConfig : Option Int
  hyp : Option (List Segment)

/-- The method `PocketsphinxAligner::alignWithFSG` (lines 427-506) over the subtitles still to
visit: whether it left through one of its `return -1`, and the subtitles as it leaves them.
The function `run` is `currentSub::run`, which assigns the approximate times, and `psIsNull`
tells whether the decoder pointer `_ps` is `NULL`. -/
def alignWithFSG (run : SubtitleItem → SubtitleItem) (psIsNull : Bool) :
    List FsgCue → Bool × List SubtitleItem
  | [] => (false, [])
  | cue :: rest =>
    if cue.dialogueEmpty then
      let r := alignWithFSG run psIsNull rest
      (r.1, cue.sub :: r.2)
    else
      let sub := run cue.sub
      match cue.subConfig with
      | none => (true, sub :: rest.map FsgCue.sub)
      | some frame_rate =>
        if psIsNull then (true, sub :: rest.map FsgCue.sub)
        else
          match cue.hyp with
          | none =>
            let r := alignWithFSG run psIsNull rest
            (r.1, sub :: r.2)
          | some segments =>
            let r := alignWithFSG run psIsNull rest
            (r.1, (findAndSetWordTimes frame_rate segments sub).2 :: r.2)

/-- A cue for which no configuration can be built. -/
def failingCue : FsgCue := ⟨musicSub, false, none, none⟩

/-- A cue that decodes well: its last four words are recognised. -/
def tomatoCue : FsgCue := ⟨tomatoSub, false, some 100, some tomatoSegments⟩

/-- The classification of the example: silence, speech, speech, silence, speech, silence. -/
def exampleClassification : List Bool := [false, true, true, false, true, false]

/-! ## Theorems: the edit distance -/

theorem lev_nil_left (b : List Char) : lev [] b = b.length := by
  rw [lev]

theorem lev_nil_right (a : List Char) : lev a [] = a.length := by
  cases a <;> simp [lev]

theorem lev_cons_cons (c d : Char) (a b : List Char) :
    lev (c :: a) (d :: b) =
      min (min (lev (c :: a) b + 1) (lev a (d :: b) + 1)) (lev a b + if c = d then 0 else 1) := by
  rw [lev]

theorem lev_self (a : List Char) : lev a a = 0 := by
  induction a with
  | nil => simp [lev_nil_left]
  | cons c a ih => rw [lev_cons_cons]; simp [ih]

/-- Dropping the head of the first word costs at most one edit. -/
theorem lev_cons_le (c : Char) (r b : List Char) : lev (c :: r) b ≤ lev r b + 1 := by
  cases b with
  | nil => simp [lev_nil_right]
  | cons d b => rw [lev_cons_cons]; omega

theorem lev_le_cons (c : Char) (r b : List Char) : lev r b ≤ lev (c :: r) b + 1 := by
  induction b generalizing r with
  | nil => rw [lev_nil_right, lev_nil_right, List.length_cons]; omega
  | cons d b ih =>
    have h1 : lev r (d :: b) ≤ lev r b + 1 := by
      cases r with
      | nil => simp [lev_nil_left]
      | cons e r => rw [lev_cons_cons]; omega
    have h2 := ih r
    rw [lev_cons_cons]
    split <;> omega

theorem lev_subst_le (c d : Char) (r b : List Char) : lev (d :: r) b ≤ lev (c :: r) b + 1 := by
  induction b with
  | nil => simp [lev_nil_right]
  | cons e b ih =>
    rw [lev_cons_cons, lev_cons_cons]
    split <;> split <;> omega

theorem lev_cons_congr (c : Char) (a a' : List Char) (h : ∀ b, lev a' b ≤ lev a b + 1) :
    ∀ b, lev (c :: a') b ≤ lev (c :: a) b + 1 := by
  intro b
  induction b with
  | nil =>
    have := h []
    simp [lev_nil_right] at this ⊢
    exact this
  | cons e b ih =>
    have h1 := h (e :: b)
    have h2 := h b
    rw [lev_cons_cons, lev_cons_cons]
    split <;> omega

theorem lev_append_congr (l a a' : List Char) (h : ∀ b, lev a' b ≤ lev a b + 1) :
    ∀ b, lev (l ++ a') b ≤ lev (l ++ a) b + 1 := by
  induction l with
  | nil => simpa using h
  | cons c l ih => exact lev_cons_congr c _ _ ih

theorem editStep_lev_le {a a' : List Char} (h : EditStep a a') (b : List Char) :
    lev a' b ≤ lev a b + 1 := by
  cases h with
  | insert l r c => exact lev_append_congr l r (c :: r) (fun b => lev_cons_le c r b) b
  | delete l r c => exact lev_append_congr l (c :: r) r (fun b => lev_le_cons c r b) b
  | substitute l r c d =>
    exact lev_append_congr l (c :: r) (d :: r) (fun b => lev_subst_le c d r b) b

theorem editStep_symm {a b : List Char} (h : EditStep a b) : EditStep b a := by
  cases h with
  | insert l r c => exact EditStep.delete l r c
  | delete l r c => exact EditStep.insert l r c
  | substitute l r c d => exact EditStep.substitute l r d c

theorem editsTo_lev_le {n : Nat} {a b : List Char} (h : EditsTo n a b) : lev a b ≤ n := by
  induction h with
  | done a => simp [lev_self]
  | @step n a b c hs _ ih =>
    have := editStep_lev_le (editStep_symm hs) c
    omega

theorem editStep_cons (c : Char) {a b : List Char} (h : EditStep a b) :
    EditStep (c :: a) (c :: b) := by
  cases h with
  | insert l r e => exact EditStep.insert (c :: l) r e
  | delete l r e => exact EditStep.delete (c :: l) r e
  | substitute l r e d => exact EditStep.substitute (c :: l) r e d

theorem editsTo_cons (c : Char) {n : Nat} {a b : List Char} (h : EditsTo n a b) :
    EditsTo n (c :: a) (c :: b) := by
  induction h with
  | done a => exact EditsTo.done _
  | step hs _ ih => exact EditsTo.step (editStep_cons c hs) ih

theorem editsTo_of_nil (b : List Char) : EditsTo b.length [] b := by
  induction b with
  | nil => exact EditsTo.done _
  | cons d b ih => exact EditsTo.step (EditStep.insert [] [] d) (editsTo_cons d ih)

theorem editsTo_to_nil (a : List Char) : EditsTo a.length a [] := by
  induction a with
  | nil => exact EditsTo.done _
  | cons c a ih => exact EditsTo.step (EditStep.delete [] a c) ih

theorem editsTo_of_lev : ∀ (a b : List Char), EditsTo (lev a b) a b
  | [], b => by rw [lev_nil_left]; exact editsTo_of_nil b
  | c :: a, [] => by rw [lev_nil_right]; exact editsTo_to_nil _
  | c :: a, d :: b => by
    have h1 := editsTo_of_lev (c :: a) b
    have h2 := editsTo_of_lev a (d :: b)
    have h3 := editsTo_of_lev a b
    rw [lev_cons_cons]
    rcases min_choice (min (lev (c :: a) b + 1) (lev a (d :: b) + 1))
        (lev a b + if c = d then 0 else 1) with h | h
    · rw [h]
      rcases min_choice (lev (c :: a) b + 1) (lev a (d :: b) + 1) with h' | h'
      · rw [h']
        exact EditsTo.step (EditStep.insert [] (c :: a) d) (editsTo_cons d h1)
      · rw [h']
        exact EditsTo.step (EditStep.delete [] a c) h2
    · rw [h]
      by_cases hcd : c = d
      · subst hcd
        simpa using editsTo_cons c h3
      · simp only [hcd, if_false]
        exact EditsTo.step (EditStep.substitute [] a c d) (editsTo_cons d h3)
termination_by a b => a.length + b.length

theorem editStep_reverse {a b : List Char} (h : EditStep a b) :
    EditStep a.reverse b.reverse := by
  cases h with
  | insert l r c =>
    have := EditStep.insert r.reverse l.reverse c
    simpa using this
  | delete l r c =>
    have := EditStep.delete r.reverse l.reverse c
    simpa using this
  | substitute l r c d =>
    have := EditStep.substitute r.reverse l.reverse c d
    simpa using this

theorem editsTo_reverse {n : Nat} {a b : List Char} (h : EditsTo n a b) :
    EditsTo n a.reverse b.reverse := by
  induction h with
  | done a => exact EditsTo.done _
  | step hs _ ih => exact EditsTo.step (editStep_reverse hs) ih

theorem lev_reverse (a b : List Char) : lev a.reverse b.reverse = lev a b := by
  apply le_antisymm
  · exact editsTo_lev_le (editsTo_reverse (editsTo_of_lev a b))
  · have := editsTo_lev_le (editsTo_reverse (editsTo_of_lev a.reverse b.reverse))
    simpa using this

theorem lev_snoc_snoc (a b : List Char) (c d : Char) :
    lev (a ++ [c]) (b ++ [d]) =
      min (min (lev (a ++ [c]) b + 1) (lev a (b ++ [d]) + 1))
        (lev a b + if c = d then 0 else 1) := by
  have h := lev_cons_cons c d a.reverse b.reverse
  have e1 := lev_reverse (a ++ [c]) (b ++ [d])
  have e2 := lev_reverse (a ++ [c]) b
  have e3 := lev_reverse a (b ++ [d])
  have e4 := lev_reverse a b
  simp only [List.reverse_append, List.reverse_cons, List.reverse_nil, List.nil_append,
    List.singleton_append] at e1 e2 e3 e4
  rw [← e1, h, e2, e3, e4]


theorem levenshtein_distance_eq_fold (a b : List Char) :
    levenshtein_distance a b =
      ((List.range a.length).foldl (levOuter a b)
        (List.replicate (b.length + 1) 0, levInit b.length)).2.getD b.length 0 := rfl

theorem levInit_fold (n m : Nat) (col : List Nat) (hcol : col.length = n + 1) (hm : m ≤ n + 1) :
    ((List.range m).foldl (fun p j => p.set j j) col).length = n + 1 ∧
      ∀ j, j < m → ((List.range m).foldl (fun p j => p.set j j) col).getD j 0 = j := by
  induction m with
  | zero => simp [hcol]
  | succ m ih =>
    obtain ⟨hl, hv⟩ := ih (by omega)
    rw [List.range_succ, List.foldl_append]
    simp only [List.foldl_cons, List.foldl_nil, List.length_set]
    generalize (List.range m).foldl (fun p j => p.set j j) col = col1 at hl hv
    refine ⟨hl, fun j hj => ?_⟩
    rw [List.getD_eq_getElem?_getD, List.getElem?_set]
    by_cases hjm : m = j
    · subst hjm
      have hlt : m < col1.length := by omega
      simp only [if_true, hlt, Option.getD_some]
    · simp only [hjm, if_false]
      rw [← List.getD_eq_getElem?_getD]
      exact hv j (by omega)

theorem levInit_isColumn (a b : List Char) : IsColumn a b 0 (levInit b.length) := by
  obtain ⟨hl, hv⟩ := levInit_fold b.length (b.length + 1) (List.replicate (b.length + 1) 0)
    (by simp) (le_refl _)
  refine ⟨hl, fun j hj => ?_⟩
  rw [levInit, hv j (by omega)]
  simp [lev_nil_left, hj]

theorem take_succ_eq_snoc (a : List Char) (i : Nat) (hi : i < a.length) :
    a.take (i + 1) = a.take i ++ [a.getD i default] := by
  rw [List.take_succ, List.getD_eq_getElem?_getD, List.getElem?_eq_getElem hi]
  rfl

theorem levInner_fold (a b : List Char) (i : Nat) (hi : i < a.length) (prev cur : List Nat)
    (hprev : IsColumn a b i prev) (hcur : cur.length = b.length + 1) (n : Nat)
    (hn : n ≤ b.length) :
    ((List.range n).foldl (levInner a b i prev) (cur.set 0 (i + 1))).length = b.length + 1 ∧
      ∀ j, j ≤ n →
        ((List.range n).foldl (levInner a b i prev) (cur.set 0 (i + 1))).getD j 0 =
          lev (a.take (i + 1)) (b.take j) := by
  induction n with
  | zero =>
    refine ⟨by simp [hcur], fun j hj => ?_⟩
    have hj0 : j = 0 := by omega
    subst hj0
    simp [lev_nil_right, hcur]
    omega
  | succ n ih =>
    obtain ⟨hl, hv⟩ := ih (by omega)
    rw [List.range_succ, List.foldl_append]
    simp only [List.foldl_cons, List.foldl_nil]
    generalize (List.range n).foldl (levInner a b i prev) (cur.set 0 (i + 1)) = col at hl hv
    refine ⟨by simp [levInner, hl], fun j hj => ?_⟩
    rw [levInner, List.getD_eq_getElem?_getD, List.getElem?_set]
    by_cases hjn : n + 1 = j
    · subst hjn
      have hlt : n + 1 < col.length := by omega
      simp only [if_true, hlt, Option.getD_some]
      rw [hv n (le_refl _), hprev.2 (n + 1) (by omega), hprev.2 n (by omega)]
      rw [take_succ_eq_snoc a i hi, take_succ_eq_snoc b n (by omega), lev_snoc_snoc]
    · simp only [hjn, if_false]
      rw [← List.getD_eq_getElem?_getD]
      exact hv j (by omega)

theorem levOuter_fold (a b : List Char) (m : Nat) (hm : m ≤ a.length) :
    ((List.range m).foldl (levOuter a b)
        (List.replicate (b.length + 1) 0, levInit b.length)).1.length = b.length + 1 ∧
      IsColumn a b m ((List.range m).foldl (levOuter a b)
        (List.replicate (b.length + 1) 0, levInit b.length)).2 := by
  induction m with
  | zero => exact ⟨by simp, levInit_isColumn a b⟩
  | succ m ih =>
    obtain ⟨hl, hc⟩ := ih (by omega)
    rw [List.range_succ, List.foldl_append]
    simp only [List.foldl_cons, List.foldl_nil]
    generalize (List.range m).foldl (levOuter a b)
      (List.replicate (b.length + 1) 0, levInit b.length) = cols at hl hc
    obtain ⟨h1, h2⟩ := levInner_fold a b m (by omega) cols.2 cols.1 hc hl b.length (le_refl _)
    exact ⟨hc.1, h1, h2⟩

theorem levenshtein_distance_eq_lev (a b : List Char) : levenshtein_distance a b = lev a b := by
  rw [levenshtein_distance_eq_fold]
  have h := (levOuter_fold a b a.length (le_refl _)).2.2 b.length (le_refl _)
  rw [h, List.take_length, List.take_length]

/-- C1: for all strings `a` and `b`, `levenshtein_distance a b` is the minimum number of
single-character insertions, deletions and substitutions that transform `a` into `b`: some
script of exactly that many edits does it, and no script does it with fewer. -/
theorem levenshtein_distance_is_minimum_edit_count (a b : List Char) :
    EditsTo (levenshtein_distance a b) a b ∧
      ∀ n, EditsTo n a b → levenshtein_distance a b ≤ n := by
  rw [levenshtein_distance_eq_lev]
  exact ⟨editsTo_of_lev a b, fun n h => editsTo_lev_le h⟩


/-! ## Theorems: the acceptance test and the search -/

theorem atLeast75PercentMatch_iff (distance largerLength : Nat) :
    atLeast75PercentMatch distance largerLength = true ↔ 4 * distance < largerLength := by
  unfold atLeast75PercentMatch
  rw [decide_eq_true_iff]
  have h25 : (0.25 : ℚ) = 1 / 4 := by norm_num
  rw [h25]
  constructor
  · intro h
    have h4 : ((4 * distance : Nat) : ℚ) < (largerLength : ℚ) := by
      push_cast
      linarith
    exact_mod_cast h4
  · intro h
    have h4 : ((4 * distance : Nat) : ℚ) < (largerLength : ℚ) := by exact_mod_cast h
    push_cast at h4
    linarith

theorem possibleMatch_iff (word recognisedWord : List Char) :
    possibleMatch word recognisedWord = true ↔
      4 * levenshtein_distance word recognisedWord < max word.length recognisedWord.length := by
  unfold possibleMatch
  simp only [atLeast75PercentMatch_iff]
  split <;> rename_i h
  · rw [max_eq_left (by omega)]
  · rw [max_eq_right (by omega)]

theorem possibleMatch_eq_decide (word recognisedWord : List Char) :
    possibleMatch word recognisedWord =
      decide (4 * levenshtein_distance word recognisedWord <
        max word.length recognisedWord.length) := by
  rw [Bool.eq_iff_iff, possibleMatch_iff, decide_eq_true_iff]

theorem possibleMatch_self (word : List Char) (h : word ≠ []) : possibleMatch word word = true := by
  rw [possibleMatch_iff, levenshtein_distance_eq_lev, lev_self]
  cases word with
  | nil => exact absurd rfl h
  | cons c w => simp

theorem tolower_tolower (c : Char) : tolower (tolower c) = tolower c := by
  unfold tolower Char.toLower
  by_cases h : c.toNat ≥ 65 ∧ c.toNat ≤ 90
  · simp only [h, and_self, if_true]
    have hc : c = Char.ofNat c.toNat := (Char.ofNat_toNat c).symm
    obtain ⟨h1, h2⟩ := h
    generalize c.toNat = n at h1 h2 hc
    interval_cases n <;> decide
  · simp only [h, if_false]


theorem searchWords_some (recognisedWord : List Char) (blockSize searchWindowSize : Nat) :
    ∀ (cands : List (List Char)) (i j : Nat),
      searchWords recognisedWord blockSize searchWindowSize cands i = some j →
        i ≤ j ∧ j ≤ blockSize + searchWindowSize ∧
          (∃ w, cands[j - i]? = some w ∧ possibleMatch w recognisedWord = true) ∧
            ∀ k w, i ≤ k → k < j → cands[k - i]? = some w →
              possibleMatch w recognisedWord = false := by
  intro cands
  induction cands with
  | nil => intro i j h; simp [searchWords] at h
  | cons word rest ih =>
    intro i j h
    rw [searchWords] at h
    by_cases hwin : i > blockSize + searchWindowSize
    · simp [hwin] at h
    · by_cases hm : possibleMatch word recognisedWord = true
      · simp only [hwin, if_false, hm, if_true, Option.some.injEq] at h
        subst h
        refine ⟨le_refl _, by omega, ⟨word, by simp, hm⟩, ?_⟩
        intro k w h1 h2
        omega
      · simp only [hwin, if_false, hm] at h
        obtain ⟨h1, h2, ⟨w, hw, hwm⟩, h4⟩ := ih (i + 1) j h
        refine ⟨by omega, h2, ⟨w, ?_, hwm⟩, ?_⟩
        · have e : j - i = (j - (i + 1)) + 1 := by omega
          rw [e, List.getElem?_cons_succ]
          exact hw
        · intro k w' hk1 hk2 hk3
          by_cases hki : k = i
          · subst hki
            simp only [Nat.sub_self, List.getElem?_cons_zero, Option.some.injEq] at hk3
            subst hk3
            simpa using hm
          · have e : k - i = (k - (i + 1)) + 1 := by omega
            rw [e, List.getElem?_cons_succ] at hk3
            exact h4 k w' (by omega) hk2 hk3

theorem searchWords_head (recognisedWord word : List Char) (rest : List (List Char))
    (blockSize searchWindowSize i : Nat) (hwin : i ≤ blockSize + searchWindowSize)
    (hm : possibleMatch word recognisedWord = true) :
    searchWords recognisedWord blockSize searchWindowSize (word :: rest) i = some i := by
  rw [searchWords]
  have : ¬ i > blockSize + searchWindowSize := by omega
  simp [this, hm]

theorem searchWords_none (recognisedWord : List Char) (blockSize searchWindowSize : Nat) :
    ∀ (cands : List (List Char)) (i : Nat),
      (∀ k w, i ≤ k → k ≤ blockSize + searchWindowSize → cands[k - i]? = some w →
        possibleMatch w recognisedWord = false) →
      searchWords recognisedWord blockSize searchWindowSize cands i = none := by
  intro cands
  induction cands with
  | nil => intro i _; rfl
  | cons word rest ih =>
    intro i h
    rw [searchWords]
    by_cases hwin : i > blockSize + searchWindowSize
    · simp [hwin]
    · have h0 := h i word (le_refl _) (by omega) (by simp)
      simp only [hwin, if_false, h0]
      apply ih
      intro k w hk1 hk2 hk3
      apply h k w (by omega) hk2
      have e : k - i = (k - (i + 1)) + 1 := by omega
      rw [e, List.getElem?_cons_succ]
      exact hk3

theorem matchedIndex_of_skip (words : List (List Char)) (s : PassState) (seg : Segment)
    (h : skipSearchingThisWord seg.word = true) : matchedIndex words s seg = none := by
  simp [matchedIndex, h]

theorem matchedIndex_some (words : List (List Char)) (s : PassState) (seg : Segment) (j : Nat)
    (h : matchedIndex words s seg = some j) :
    skipSearchingThisWord seg.word = false ∧ s.lastWordFoundAtIndex < (j : Int) ∧
      j ≤ s.currentBlock.recognisedString.length + 1 + 3 ∧
        (∃ w, words[j]? = some w ∧ possibleMatch w seg.word = true) ∧
          ∀ (i : Nat) w, s.lastWordFoundAtIndex < (i : Int) → i < j → words[i]? = some w →
            possibleMatch w seg.word = false := by
  unfold matchedIndex at h
  by_cases hskip : skipSearchingThisWord seg.word = true
  · simp [hskip] at h
  · simp only [hskip] at h
    obtain ⟨h1, h2, ⟨w, hw, hwm⟩, h4⟩ := searchWords_some _ _ _ _ _ _ h
    rw [List.getElem?_drop] at hw
    refine ⟨by simpa using hskip, by omega, h2, ⟨w, ?_, hwm⟩, ?_⟩
    · rw [← hw]; congr 1; omega
    · intro i w' hi1 hi2 hi3
      apply h4 i w' (by omega) hi2
      rw [List.getElem?_drop, ← hi3]
      congr 1
      omega

theorem matchedIndex_of_exact (words : List (List Char)) (s : PassState) (seg : Segment)
    (hskip : skipSearchingThisWord seg.word = false) (hne : seg.word ≠ [])
    (hwin : s.lastWordFoundAtIndex ≤ s.currentBlock.recognisedString.length + 3)
    (hnext : words[(s.lastWordFoundAtIndex + 1).toNat]? = some seg.word) :
    matchedIndex words s seg = some (s.lastWordFoundAtIndex + 1).toNat := by
  unfold matchedIndex
  simp only [hskip]
  obtain ⟨hlt, hget⟩ := List.getElem?_eq_some.mp hnext
  rw [List.drop_eq_getElem_cons hlt, hget]
  exact searchWords_head _ _ _ _ _ _ (by omega) (possibleMatch_self _ hne)

theorem matchedIndex_none_of_forall (words : List (List Char)) (s : PassState) (seg : Segment)
    (h : ∀ (i : Nat) w, s.lastWordFoundAtIndex < (i : Int) →
      i ≤ s.currentBlock.recognisedString.length + 1 + 3 → words[i]? = some w →
        possibleMatch w seg.word = false) :
    matchedIndex words s seg = none := by
  unfold matchedIndex
  by_cases hskip : skipSearchingThisWord seg.word = true
  · simp [hskip]
  · simp only [hskip]
    apply searchWords_none
    intro k w hk1 hk2 hk3
    apply h k w (by omega) hk2
    rw [List.getElem?_drop] at hk3
    rw [← hk3]
    congr 1
    omega

/-! ## Theorems: one iteration of the loop -/

theorem processSegment_of_none (frame_rate : Int) (words : List (List Char)) (s : PassState)
    (seg : Segment) (h : matchedIndex words s seg = none) :
    processSegment frame_rate words s seg =
      ⟨s.lastWordFoundAtIndex,
        ⟨s.currentBlock.recognisedString ++ [seg.word],
          s.currentBlock.recognisedWordStartTimes ++
            [s.sub.startTime + frameOffsetMs seg.sf frame_rate],
          s.currentBlock.recognisedWordEndTimes ++
            [s.sub.startTime + frameOffsetMs seg.ef frame_rate]⟩,
        s.sub⟩ := by
  simp [processSegment, h, SubtitleItem.getStartTime]

theorem processSegment_of_some (frame_rate : Int) (words : List (List Char)) (s : PassState)
    (seg : Segment) (j : Nat) (h : matchedIndex words s seg = some j) :
    processSegment frame_rate words s seg =
      ⟨(j : Int),
        ⟨s.currentBlock.recognisedString ++ [seg.word],
          s.currentBlock.recognisedWordStartTimes ++
            [s.sub.startTime + frameOffsetMs seg.sf frame_rate],
          s.currentBlock.recognisedWordEndTimes ++
            [s.sub.startTime + frameOffsetMs seg.ef frame_rate]⟩,
        (s.sub.setWordRecognisedStatusByIndex true j).setWordTimesByIndex
          (s.sub.startTime + frameOffsetMs seg.sf frame_rate)
          (s.sub.startTime + frameOffsetMs seg.ef frame_rate) j⟩ := by
  simp [processSegment, h, SubtitleItem.getStartTime]

theorem processSegment_currentBlock (frame_rate : Int) (words : List (List Char))
    (s : PassState) (seg : Segment) :
    (processSegment frame_rate words s seg).currentBlock =
      ⟨s.currentBlock.recognisedString ++ [seg.word],
        s.currentBlock.recognisedWordStartTimes ++
          [s.sub.startTime + frameOffsetMs seg.sf frame_rate],
        s.currentBlock.recognisedWordEndTimes ++
          [s.sub.startTime + frameOffsetMs seg.ef frame_rate]⟩ := by
  cases h : matchedIndex words s seg with
  | none => rw [processSegment_of_none _ _ _ _ h]
  | some j => rw [processSegment_of_some _ _ _ _ j h]

theorem processSegment_startTime (frame_rate : Int) (words : List (List Char))
    (s : PassState) (seg : Segment) :
    (processSegment frame_rate words s seg).sub.startTime = s.sub.startTime := by
  cases h : matchedIndex words s seg with
  | none => rw [processSegment_of_none _ _ _ _ h]
  | some j =>
    rw [processSegment_of_some _ _ _ _ j h]
    rfl

theorem modifyWordAt_length (f : Word → Word) :
    ∀ (ws : List Word) (n : Nat), (modifyWordAt f ws n).length = ws.length
  | [], _ => rfl
  | _ :: _, 0 => rfl
  | _ :: ws, n + 1 => by simp [modifyWordAt, modifyWordAt_length f ws n]

theorem modifyWordAt_getElem? (f : Word → Word) :
    ∀ (ws : List Word) (n i : Nat),
      (modifyWordAt f ws n)[i]? = if i = n then ws[i]?.map f else ws[i]?
  | [], _, _ => by simp [modifyWordAt]
  | w :: ws, 0, 0 => by simp [modifyWordAt]
  | w :: ws, 0, i + 1 => by simp [modifyWordAt]
  | w :: ws, n + 1, 0 => by simp [modifyWordAt]
  | w :: ws, n + 1, i + 1 => by
    simp only [modifyWordAt, List.getElem?_cons_succ, modifyWordAt_getElem? f ws n i]
    simp

theorem modifyWordAt_map_text (f : Word → Word) (hf : ∀ w, (f w).text = w.text) :
    ∀ (ws : List Word) (n : Nat), (modifyWordAt f ws n).map Word.text = ws.map Word.text
  | [], _ => rfl
  | _ :: _, 0 => by simp [modifyWordAt, hf]
  | _ :: ws, n + 1 => by simp [modifyWordAt, modifyWordAt_map_text f hf ws n]

/-- What a match writes into the subtitle: the word at `j` becomes recognised with the new
times, and every other word is as before. -/
theorem setWord_getElem? (sub : SubtitleItem) (startTime endTime : Int) (j i : Nat) :
    ((sub.setWordRecognisedStatusByIndex true j).setWordTimesByIndex startTime endTime
        j).words[i]? =
      if i = j then sub.words[i]?.map (fun w => ⟨w.text, true, startTime, endTime⟩)
      else sub.words[i]? := by
  simp only [SubtitleItem.setWordTimesByIndex, SubtitleItem.setWordRecognisedStatusByIndex,
    modifyWordAt_getElem?]
  split
  · simp [Option.map_map, Function.comp_def]
  · rfl

theorem setWord_length (sub : SubtitleItem) (startTime endTime : Int) (j : Nat) :
    ((sub.setWordRecognisedStatusByIndex true j).setWordTimesByIndex startTime endTime
        j).words.length = sub.words.length := by
  simp [SubtitleItem.setWordTimesByIndex, SubtitleItem.setWordRecognisedStatusByIndex,
    modifyWordAt_length]

theorem processSegment_words_length (frame_rate : Int) (words : List (List Char))
    (s : PassState) (seg : Segment) :
    (processSegment frame_rate words s seg).sub.words.length = s.sub.words.length := by
  cases h : matchedIndex words s seg with
  | none => rw [processSegment_of_none _ _ _ _ h]
  | some j =>
    rw [processSegment_of_some _ _ _ _ j h]
    exact setWord_length _ _ _ _

theorem processSegment_lastWordFoundAtIndex_le (frame_rate : Int) (words : List (List Char))
    (s : PassState) (seg : Segment) :
    s.lastWordFoundAtIndex ≤ (processSegment frame_rate words s seg).lastWordFoundAtIndex := by
  cases h : matchedIndex words s seg with
  | none => rw [processSegment_of_none _ _ _ _ h]
  | some j =>
    rw [processSegment_of_some _ _ _ _ j h]
    have := (matchedIndex_some _ _ _ _ h).2.1
    simp only
    omega

/-! ## Theorems: the whole pass -/

theorem runPass_nil (frame_rate : Int) (sub : SubtitleItem) :
    runPass frame_rate [] sub = initialState sub := rfl

theorem runPass_snoc (frame_rate : Int) (before : List Segment) (seg : Segment)
    (sub : SubtitleItem) :
    runPass frame_rate (before ++ [seg]) sub =
      processSegment frame_rate (lowercaseWords sub) (runPass frame_rate before sub) seg := by
  simp [runPass, List.foldl_append]

theorem processSegment_invariant (frame_rate : Int) (words : List (List Char))
    (sub : SubtitleItem) (s : PassState) (seg : Segment) (h : PassInvariant sub s) :
    PassInvariant sub (processSegment frame_rate words s seg) := by
  obtain ⟨h1, h2, h3, h4⟩ := h
  refine ⟨?_, ?_, ?_, ?_⟩
  · rw [processSegment_startTime, h1]
  · rw [processSegment_words_length, h2]
  · have := processSegment_lastWordFoundAtIndex_le frame_rate words s seg
    omega
  · rw [processSegment_currentBlock]
    cases h : matchedIndex words s seg with
    | none =>
      rw [processSegment_of_none _ _ _ _ h]
      simp only [List.length_append, List.length_singleton]
      push_cast
      omega
    | some j =>
      rw [processSegment_of_some _ _ _ _ j h]
      have := (matchedIndex_some _ _ _ _ h).2.2.1
      simp only [List.length_append, List.length_singleton]
      push_cast
      omega

theorem foldl_processSegment_invariant (frame_rate : Int) (words : List (List Char))
    (sub : SubtitleItem) :
    ∀ (segments : List Segment) (s : PassState), PassInvariant sub s →
      PassInvariant sub (segments.foldl (processSegment frame_rate words) s)
  | [], _, h => h
  | seg :: rest, s, h =>
    foldl_processSegment_invariant frame_rate words sub rest _
      (processSegment_invariant frame_rate words sub s seg h)

theorem initialState_invariant (sub : SubtitleItem) : PassInvariant sub (initialState sub) := by
  refine ⟨rfl, rfl, ?_, ?_⟩ <;> simp [initialState]

theorem runPass_invariant (frame_rate : Int) (segments : List Segment) (sub : SubtitleItem) :
    PassInvariant sub (runPass frame_rate segments sub) :=
  foldl_processSegment_invariant frame_rate _ sub segments _ (initialState_invariant sub)

theorem foldl_processSegment_currentBlock (frame_rate : Int) (words : List (List Char)) :
    ∀ (segments : List Segment) (s : PassState),
      (segments.foldl (processSegment frame_rate words) s).currentBlock =
        ⟨s.currentBlock.recognisedString ++ segments.map Segment.word,
          s.currentBlock.recognisedWordStartTimes ++
            segments.map (fun seg => s.sub.startTime + frameOffsetMs seg.sf frame_rate),
          s.currentBlock.recognisedWordEndTimes ++
            segments.map (fun seg => s.sub.startTime + frameOffsetMs seg.ef frame_rate)⟩
  | [], s => by simp
  | seg :: rest, s => by
    rw [List.foldl_cons, foldl_processSegment_currentBlock frame_rate words rest,
      processSegment_currentBlock, processSegment_startTime]
    simp

theorem matchTrace_getElem? (frame_rate : Int) (words : List (List Char)) :
    ∀ (segments : List Segment) (s : PassState) (k : Nat),
      (matchTrace frame_rate words s segments)[k]? =
        segments[k]?.map (fun seg =>
          matchedIndex words ((segments.take k).foldl (processSegment frame_rate words) s) seg)
  | [], _, _ => by simp [matchTrace]
  | seg :: rest, s, 0 => by simp [matchTrace]
  | seg :: rest, s, k + 1 => by
    simp [matchTrace, matchTrace_getElem? frame_rate words rest _ k]

/-! ## Theorems: the claims about the pass -/

/-- C3: for every reference word sequence and every segment sequence, `lastWordFoundAtIndex`
starts at `-1`, and its value after the loop has processed one more segment is at least its
value before that segment. -/
theorem lastWordFoundAtIndex_non_decreasing (frame_rate : Int) (sub : SubtitleItem)
    (before : List Segment) (seg : Segment) :
    (runPass frame_rate [] sub).lastWordFoundAtIndex = -1 ∧
      (runPass frame_rate before sub).lastWordFoundAtIndex ≤
        (runPass frame_rate (before ++ [seg]) sub).lastWordFoundAtIndex := by
  refine ⟨rfl, ?_⟩
  rw [runPass_snoc]
  exact processSegment_lastWordFoundAtIndex_le _ _ _ _

/-- C5: a segment whose word is the silence marker, an utterance marker, or starts with an
opening bracket is not searched for: whatever the reference words and the state of the pass,
no index is found for it, the subtitle is left as it was and `lastWordFoundAtIndex` keeps its
value. -/
theorem non_lexical_segment_never_matched (frame_rate : Int) (words : List (List Char))
    (s : PassState) (seg : Segment)
    (h : seg.word = "<sil>".toList ∨ seg.word = "<s>".toList ∨ seg.word = "</s>".toList ∨
      seg.word.head? = some '[') :
    matchedIndex words s seg = none ∧
      (processSegment frame_rate words s seg).sub = s.sub ∧
        (processSegment frame_rate words s seg).lastWordFoundAtIndex =
          s.lastWordFoundAtIndex := by
  have hskip : skipSearchingThisWord seg.word = true := by
    unfold skipSearchingThisWord
    rcases h with h | h | h | h <;> simp [h]
  have hnone := matchedIndex_of_skip words s seg hskip
  rw [processSegment_of_none _ _ _ _ hnone]
  exact ⟨hnone, rfl, rfl⟩

theorem non_lexical_segment_never_matched_witness :
    matchedIndex ["<sil>".toList]
        (initialState ⟨0, [⟨"<sil>".toList, false, 0, 500⟩]⟩) ⟨"<sil>".toList, 0, 10⟩ = none ∧
      (processSegment 100 ["<sil>".toList]
        (initialState ⟨0, [⟨"<sil>".toList, false, 0, 500⟩]⟩) ⟨"<sil>".toList, 0, 10⟩).sub =
          (initialState ⟨0, [⟨"<sil>".toList, false, 0, 500⟩]⟩).sub ∧
      (processSegment 100 ["<sil>".toList]
        (initialState ⟨0, [⟨"<sil>".toList, false, 0, 500⟩]⟩)
          ⟨"<sil>".toList, 0, 10⟩).lastWordFoundAtIndex =
        (initialState ⟨0, [⟨"<sil>".toList, false, 0, 500⟩]⟩).lastWordFoundAtIndex :=
  non_lexical_segment_never_matched 100 ["<sil>".toList]
    (initialState ⟨0, [⟨"<sil>".toList, false, 0, 500⟩]⟩) ⟨"<sil>".toList, 0, 10⟩
    (Or.inl rfl)

theorem wrapInt32_of_fits (x : Int) (h : fitsInt32 x = true) : wrapInt32 x = x := by
  simp only [fitsInt32, Bool.and_eq_true, decide_eq_true_eq] at h
  unfold wrapInt32
  omega

theorem frameOffsetMs_of_fits (frame frame_rate : Int) (h : fitsInt32 (frame * 1000) = true) :
    frameOffsetMs frame frame_rate = (frame * 1000).tdiv frame_rate := by
  unfold frameOffsetMs
  rw [wrapInt32_of_fits _ h]

theorem divisionTraps_of_fits (frame frame_rate : Int) (hrate : frame_rate ≠ 0)
    (h : fitsInt32 (frame * 1000) = true) : divisionTraps frame frame_rate = false := by
  unfold divisionTraps
  rw [wrapInt32_of_fits _ h]
  have hne : ¬ frame * 1000 = -2147483648 := by omega
  simp [hrate, hne]

/-- The two ways the division traps: a zero divisor, and the least `int` over -1 (the frame
268435456 times 1000 wraps to the least `int`). A frame rate of 100 does not trap. -/
theorem divisionTraps_cases (frame : Int) :
    divisionTraps frame 0 = true ∧ divisionTraps 268435456 (-1) = true ∧
      divisionTraps 268435456 100 = false ∧ divisionTraps frame 100 = false := by
  refine ⟨by simp [divisionTraps], by decide, by decide, by simp [divisionTraps]⟩

/-- The ends of the range of an `int`, and the wrap just beyond them. -/
theorem int32_range_cases :
    fitsInt32 2147483647 = true ∧ fitsInt32 2147483648 = false ∧
      fitsInt32 (-2147483648) = true ∧ fitsInt32 (-2147483649) = false ∧
      wrapInt32 2147483648 = -2147483648 ∧ wrapInt32 (-2147483649) = 2147483647 ∧
      frameOffsetMs 3000000 100 = -12949672 := by
  decide

/-- A pass traps when either division of a segment does: the start frame or the end frame
alone is enough. -/
theorem passTraps_cases :
    passTraps (-1) [⟨"why".toList, 268435456, 0⟩] = true ∧
      passTraps (-1) [⟨"why".toList, 0, 268435456⟩] = true ∧
      passTraps (-1) [⟨"why".toList, 0, 1⟩] = false ∧
      passTraps 0 [] = false := by
  decide

theorem passTraps_of_fits (frame_rate : Int) (segments : List Segment) (hrate : frame_rate ≠ 0)
    (h : ∀ seg ∈ segments,
      fitsInt32 (seg.sf * 1000) = true ∧ fitsInt32 (seg.ef * 1000) = true) :
    passTraps frame_rate segments = false := by
  unfold passTraps
  rw [List.any_eq_false]
  intro seg hseg
  simp [divisionTraps_of_fits _ _ hrate (h seg hseg).1,
    divisionTraps_of_fits _ _ hrate (h seg hseg).2]

theorem findAndSetWordTimes_block (frame_rate : Int) (segments : List Segment)
    (sub : SubtitleItem) :
    (findAndSetWordTimes frame_rate segments sub).1 =
      ⟨segments.map Segment.word,
        segments.map (fun seg => sub.getStartTime + frameOffsetMs seg.sf frame_rate),
        segments.map (fun seg => sub.getStartTime + frameOffsetMs seg.ef frame_rate)⟩ := by
  simp only [findAndSetWordTimes, runPass, foldl_processSegment_currentBlock]
  simp [initialState, SubtitleItem.getStartTime]

/-- C10, as the code has it: in a pass without a trap the block returned by
`findAndSetWordTimes` has one entry for each segment, in segment order, matched or not and
skipped or not; entry `k` has the word of segment `k` and the times
`cueStart + sf * 1000 / frame_rate` and `cueStart + ef * 1000 / frame_rate` as 32-bit `int`
arithmetic gives them; so each of the three vectors has as many entries as there are segments.
When the frame rate is not zero and the products `sf * 1000` and `ef * 1000` fit in an `int`,
the pass does not trap and the times are those of the exact truncating division. At the frame
rate zero a pass over at least one segment traps and returns no block. -/
theorem recognisedBlock_has_one_entry_per_segment (frame_rate : Int)
    (segments : List Segment) (sub : SubtitleItem) :
    (passTraps frame_rate segments = false →
      (findAndSetWordTimes frame_rate segments sub).1 =
          ⟨segments.map Segment.word,
            segments.map (fun seg => sub.getStartTime + frameOffsetMs seg.sf frame_rate),
            segments.map (fun seg => sub.getStartTime + frameOffsetMs seg.ef frame_rate)⟩ ∧
        (findAndSetWordTimes frame_rate segments sub).1.recognisedString.length =
          segments.length ∧
        (findAndSetWordTimes frame_rate segments sub).1.recognisedWordStartTimes.length =
          segments.length ∧
        (findAndSetWordTimes frame_rate segments sub).1.recognisedWordEndTimes.length =
          segments.length) ∧
      (frame_rate ≠ 0 →
        (∀ seg ∈ segments,
          fitsInt32 (seg.sf * 1000) = true ∧ fitsInt32 (seg.ef * 1000) = true) →
        passTraps frame_rate segments = false ∧
          (findAndSetWordTimes frame_rate segments sub).1 =
            ⟨segments.map Segment.word,
              segments.map (fun seg => sub.getStartTime + (seg.sf * 1000).tdiv frame_rate),
              segments.map (fun seg => sub.getStartTime + (seg.ef * 1000).tdiv frame_rate)⟩) ∧
      (segments ≠ [] → passTraps 0 segments = true) := by
  have h := findAndSetWordTimes_block frame_rate segments sub
  refine ⟨?_, ?_, ?_⟩
  · intro _
    rw [h]
    simp
  rotate_left
  · intro hne
    cases segments with
    | nil => exact absurd rfl hne
    | cons seg rest => simp [passTraps, divisionTraps]
  · intro hrate hfits
    refine ⟨passTraps_of_fits frame_rate segments hrate hfits, ?_⟩
    rw [h]
    congr 1
    · apply List.map_congr_left
      intro seg hseg
      rw [frameOffsetMs_of_fits _ _ (hfits seg hseg).1]
    · apply List.map_congr_left
      intro seg hseg
      rw [frameOffsetMs_of_fits _ _ (hfits seg hseg).2]

theorem recognisedBlock_has_one_entry_per_segment_witness :
    passTraps 100 tomatoSegments = false ∧ (100 : Int) ≠ 0 ∧
      (∀ seg ∈ tomatoSegments,
        fitsInt32 (seg.sf * 1000) = true ∧ fitsInt32 (seg.ef * 1000) = true) ∧
      (findAndSetWordTimes 100 tomatoSegments tomatoSub).1.recognisedString.length =
        tomatoSegments.length ∧
      (findAndSetWordTimes 100 tomatoSegments tomatoSub).1 =
        ⟨tomatoSegments.map Segment.word,
          tomatoSegments.map (fun seg => tomatoSub.getStartTime + (seg.sf * 1000).tdiv 100),
          tomatoSegments.map (fun seg => tomatoSub.getStartTime + (seg.ef * 1000).tdiv 100)⟩ ∧
      tomatoSegments ≠ [] ∧ passTraps 0 tomatoSegments = true :=
  ⟨by decide, by decide, by decide,
    ((recognisedBlock_has_one_entry_per_segment 100 tomatoSegments tomatoSub).1
      (by decide)).2.1,
    ((recognisedBlock_has_one_entry_per_segment 100 tomatoSegments tomatoSub).2.1
      (by decide) (by decide)).2,
    by decide,
    (recognisedBlock_has_one_entry_per_segment 100 tomatoSegments tomatoSub).2.2 (by decide)⟩

/-- C10 fails as stated: for a segment at frame 3000000 and the frame rate 100 the pass does
not trap and the start time in the block is the cue start minus 12949672 milliseconds, not
the cue start plus 3000000 * 1000 / 100. -/
theorem late_segment_gets_a_wrapped_time :
    passTraps 100 veryLateSegments = false ∧
      (findAndSetWordTimes 100 veryLateSegments tomatoSub).1.recognisedWordStartTimes =
        [tomatoSub.getStartTime + (-12949672)] ∧
      (findAndSetWordTimes 100 veryLateSegments tomatoSub).1.recognisedWordStartTimes ≠
        veryLateSegments.map
          (fun seg => tomatoSub.getStartTime + (seg.sf * 1000).tdiv 100) := by
  decide!

theorem matchedIndex_eq_searchWords (words : List (List Char)) (s : PassState) (seg : Segment)
    (first size : Nat) (hskip : skipSearchingThisWord seg.word = false)
    (hfirst : s.lastWordFoundAtIndex + 1 = (first : Int))
    (hsize : s.currentBlock.recognisedString.length = size) :
    matchedIndex words s seg = searchWords seg.word (size + 1) 3 (words.drop first) first := by
  unfold matchedIndex
  simp only [hskip, hfirst, hsize, Int.toNat_ofNat]
  rfl

theorem processSegment_lastWordFoundAtIndex_of_some (frame_rate : Int)
    (words : List (List Char)) (s : PassState) (seg : Segment) (j : Nat)
    (h : matchedIndex words s seg = some j) :
    (processSegment frame_rate words s seg).lastWordFoundAtIndex = (j : Int) := by
  rw [processSegment_of_some _ _ _ _ j h]

theorem processSegment_sub_of_some (frame_rate : Int)
    (words : List (List Char)) (s : PassState) (seg : Segment) (j : Nat)
    (h : matchedIndex words s seg = some j) :
    (processSegment frame_rate words s seg).sub =
      (s.sub.setWordRecognisedStatusByIndex true j).setWordTimesByIndex
        (s.sub.startTime + frameOffsetMs seg.sf frame_rate)
        (s.sub.startTime + frameOffsetMs seg.ef frame_rate) j := by
  rw [processSegment_of_some _ _ _ _ j h]

theorem processSegment_size (frame_rate : Int) (words : List (List Char)) (s : PassState)
    (seg : Segment) :
    (processSegment frame_rate words s seg).currentBlock.recognisedString.length =
      s.currentBlock.recognisedString.length + 1 := by
  rw [processSegment_currentBlock]
  simp

/-- C4: with the reference words why, would, you, use, tomato and the segments would, you, use,
tomato, whatever their frames, the frame rate, the cue start and the baseline times, the pass
finds the indices 1, 2, 3 and 4 for the four segments in turn, writes their times into those
words, and leaves the word at index 0 unrecognised with its baseline times. -/
theorem tomato_example_matches_indices_one_to_four (frame_rate cueStart : Int)
    (sf1 ef1 sf2 ef2 sf3 ef3 sf4 ef4 : Int) (s0 e0 s1 e1 s2 e2 s3 e3 s4 e4 : Int) :
    passMatches frame_rate
        [⟨"would".toList, sf1, ef1⟩, ⟨"you".toList, sf2, ef2⟩, ⟨"use".toList, sf3, ef3⟩,
          ⟨"tomato".toList, sf4, ef4⟩]
        ⟨cueStart, [⟨"why".toList, false, s0, e0⟩, ⟨"would".toList, false, s1, e1⟩,
          ⟨"you".toList, false, s2, e2⟩, ⟨"use".toList, false, s3, e3⟩,
          ⟨"tomato".toList, false, s4, e4⟩]⟩ = [some 1, some 2, some 3, some 4] ∧
    (findAndSetWordTimes frame_rate
        [⟨"would".toList, sf1, ef1⟩, ⟨"you".toList, sf2, ef2⟩, ⟨"use".toList, sf3, ef3⟩,
          ⟨"tomato".toList, sf4, ef4⟩]
        ⟨cueStart, [⟨"why".toList, false, s0, e0⟩, ⟨"would".toList, false, s1, e1⟩,
          ⟨"you".toList, false, s2, e2⟩, ⟨"use".toList, false, s3, e3⟩,
          ⟨"tomato".toList, false, s4, e4⟩]⟩).2 =
      ⟨cueStart, [⟨"why".toList, false, s0, e0⟩,
        ⟨"would".toList, true, cueStart + frameOffsetMs sf1 frame_rate,
          cueStart + frameOffsetMs ef1 frame_rate⟩,
        ⟨"you".toList, true, cueStart + frameOffsetMs sf2 frame_rate,
          cueStart + frameOffsetMs ef2 frame_rate⟩,
        ⟨"use".toList, true, cueStart + frameOffsetMs sf3 frame_rate,
          cueStart + frameOffsetMs ef3 frame_rate⟩,
        ⟨"tomato".toList, true, cueStart + frameOffsetMs sf4 frame_rate,
          cueStart + frameOffsetMs ef4 frame_rate⟩]⟩ := by
  generalize hsub : (⟨cueStart, [⟨"why".toList, false, s0, e0⟩, ⟨"would".toList, false, s1, e1⟩,
    ⟨"you".toList, false, s2, e2⟩, ⟨"use".toList, false, s3, e3⟩,
    ⟨"tomato".toList, false, s4, e4⟩]⟩ : SubtitleItem) = sub
  have hW : lowercaseWords sub =
      ["why".toList, "would".toList, "you".toList, "use".toList, "tomato".toList] := by
    subst hsub
    simp only [lowercaseWords, SubtitleItem.getIndividualWords, List.map]
    decide
  generalize hg1 : (⟨"would".toList, sf1, ef1⟩ : Segment) = g1
  generalize hg2 : (⟨"you".toList, sf2, ef2⟩ : Segment) = g2
  generalize hg3 : (⟨"use".toList, sf3, ef3⟩ : Segment) = g3
  generalize hg4 : (⟨"tomato".toList, sf4, ef4⟩ : Segment) = g4
  have w1 : g1.word = "would".toList := by rw [← hg1]
  have w2 : g2.word = "you".toList := by rw [← hg2]
  have w3 : g3.word = "use".toList := by rw [← hg3]
  have w4 : g4.word = "tomato".toList := by rw [← hg4]
  have m0 : possibleMatch "why".toList "would".toList = false := by
    rw [possibleMatch_eq_decide]; decide
  have m1 : possibleMatch "would".toList "would".toList = true := possibleMatch_self _ (by decide)
  have m2 : possibleMatch "you".toList "you".toList = true := possibleMatch_self _ (by decide)
  have m3 : possibleMatch "use".toList "use".toList = true := possibleMatch_self _ (by decide)
  have m4 : possibleMatch "tomato".toList "tomato".toList = true :=
    possibleMatch_self _ (by decide)
  have h1 : matchedIndex (lowercaseWords sub) (initialState sub) g1 = some 1 := by
    rw [matchedIndex_eq_searchWords _ _ _ 0 0 (by rw [w1]; decide) (by rfl) (by rfl), hW, w1]
    simp only [List.drop, searchWords, m0, m1]
    simp
  have h2 : matchedIndex (lowercaseWords sub)
      (processSegment frame_rate (lowercaseWords sub) (initialState sub) g1) g2 = some 2 := by
    rw [matchedIndex_eq_searchWords _ _ _ 2 1 (by rw [w2]; decide)
      (by rw [processSegment_lastWordFoundAtIndex_of_some _ _ _ _ 1 h1]; rfl)
      (by rw [processSegment_size]; rfl), hW, w2]
    simp only [List.drop, searchWords, m2]
    simp
  have h3 : matchedIndex (lowercaseWords sub)
      (processSegment frame_rate (lowercaseWords sub)
        (processSegment frame_rate (lowercaseWords sub) (initialState sub) g1) g2) g3 =
        some 3 := by
    rw [matchedIndex_eq_searchWords _ _ _ 3 2 (by rw [w3]; decide)
      (by rw [processSegment_lastWordFoundAtIndex_of_some _ _ _ _ 2 h2]; rfl)
      (by rw [processSegment_size, processSegment_size]; rfl), hW, w3]
    simp only [List.drop, searchWords, m3]
    simp
  have h4 : matchedIndex (lowercaseWords sub)
      (processSegment frame_rate (lowercaseWords sub)
        (processSegment frame_rate (lowercaseWords sub)
          (processSegment frame_rate (lowercaseWords sub) (initialState sub) g1) g2) g3) g4 =
        some 4 := by
    rw [matchedIndex_eq_searchWords _ _ _ 4 3 (by rw [w4]; decide)
      (by rw [processSegment_lastWordFoundAtIndex_of_some _ _ _ _ 3 h3]; rfl)
      (by rw [processSegment_size, processSegment_size, processSegment_size]; rfl), hW, w4]
    simp only [List.drop, searchWords, m4]
    simp
  constructor
  · simp only [passMatches, matchTrace, h1, h2, h3, h4]
  · simp only [findAndSetWordTimes, runPass, List.foldl]
    rw [processSegment_sub_of_some _ _ _ _ 4 h4, processSegment_startTime,
      processSegment_startTime, processSegment_startTime,
      processSegment_sub_of_some _ _ _ _ 3 h3, processSegment_startTime,
      processSegment_startTime,
      processSegment_sub_of_some _ _ _ _ 2 h2, processSegment_startTime,
      processSegment_sub_of_some _ _ _ _ 1 h1]
    subst hsub hg1 hg2 hg3 hg4
    rfl

/-- C7: greedy-first acceptance. Whenever the loop finds index `j` for a segment, the word at
`j` passes the test `distance < largerLength * 0.25`, and no word at an index strictly between
`lastWordFoundAtIndex` and `j` passes it: the match is the lowest qualifying index. -/
theorem match_is_first_qualifying_candidate (words : List (List Char)) (s : PassState)
    (seg : Segment) (j : Nat) (h : matchedIndex words s seg = some j) :
    (∃ w, words[j]? = some w ∧
        ((levenshtein_distance w seg.word : Nat) : ℚ) <
          ((max w.length seg.word.length : Nat) : ℚ) * 0.25) ∧
      ∀ (i : Nat) w, s.lastWordFoundAtIndex < (i : Int) → i < j → words[i]? = some w →
        ¬ ((levenshtein_distance w seg.word : Nat) : ℚ) <
          ((max w.length seg.word.length : Nat) : ℚ) * 0.25 := by
  have key : ∀ w : List Char, possibleMatch w seg.word = true ↔
      ((levenshtein_distance w seg.word : Nat) : ℚ) <
        ((max w.length seg.word.length : Nat) : ℚ) * 0.25 := by
    intro w
    rw [possibleMatch_iff, ← atLeast75PercentMatch_iff]
    unfold atLeast75PercentMatch
    rw [decide_eq_true_iff]
  obtain ⟨_, _, _, ⟨w, hw, hwm⟩, hfirst⟩ := matchedIndex_some words s seg j h
  refine ⟨⟨w, hw, (key w).mp hwm⟩, ?_⟩
  intro i w' hi1 hi2 hi3 hcon
  have := hfirst i w' hi1 hi2 hi3
  rw [(key w').mpr hcon] at this
  exact Bool.noConfusion this

theorem match_is_first_qualifying_candidate_witness :
    matchedIndex (lowercaseWords tomatoSub) (initialState tomatoSub) ⟨"would".toList, 30, 55⟩ =
        some 1 ∧
      ((∃ w, (lowercaseWords tomatoSub)[1]? = some w ∧
          ((levenshtein_distance w "would".toList : Nat) : ℚ) <
            ((max w.length "would".toList.length : Nat) : ℚ) * 0.25) ∧
        ∀ (i : Nat) w, (initialState tomatoSub).lastWordFoundAtIndex < (i : Int) → i < 1 →
          (lowercaseWords tomatoSub)[i]? = some w →
            ¬ ((levenshtein_distance w "would".toList : Nat) : ℚ) <
              ((max w.length "would".toList.length : Nat) : ℚ) * 0.25) :=
  ⟨by decide!, match_is_first_qualifying_candidate (lowercaseWords tomatoSub)
    (initialState tomatoSub) ⟨"would".toList, 30, 55⟩ 1 (by decide!)⟩

/-- C2, as the code has it: in every state a pass reaches, a segment whose word is not empty,
is not skipped by the guard for silence, utterance markers and bracketed words, and is
character for character the lowercased reference word at `lastWordFoundAtIndex + 1`, is
accepted for that word, wherever the search window stands: that index is found, it becomes
`lastWordFoundAtIndex`, and the word is marked recognised with the times of the segment. -/
theorem exact_lexical_word_is_accepted (frame_rate : Int) (sub : SubtitleItem)
    (before : List Segment) (seg : Segment)
    (hskip : skipSearchingThisWord seg.word = false) (hne : seg.word ≠ [])
    (hnext : (lowercaseWords sub)[((runPass frame_rate before sub).lastWordFoundAtIndex
      + 1).toNat]? = some seg.word) :
    matchedIndex (lowercaseWords sub) (runPass frame_rate before sub) seg =
        some ((runPass frame_rate before sub).lastWordFoundAtIndex + 1).toNat ∧
      (runPass frame_rate (before ++ [seg]) sub).lastWordFoundAtIndex =
        (runPass frame_rate before sub).lastWordFoundAtIndex + 1 ∧
      ∃ w, (runPass frame_rate (before ++ [seg]) sub).sub.words[((runPass frame_rate before
          sub).lastWordFoundAtIndex + 1).toNat]? = some w ∧
        w.recognised = true ∧
        w.startTime = sub.startTime + frameOffsetMs seg.sf frame_rate ∧
        w.endTime = sub.startTime + frameOffsetMs seg.ef frame_rate := by
  obtain ⟨i1, i2, i3, i4⟩ := runPass_invariant frame_rate before sub
  have hm := matchedIndex_of_exact (lowercaseWords sub) (runPass frame_rate before sub) seg
    hskip hne i4 hnext
  refine ⟨hm, ?_, ?_⟩
  · rw [runPass_snoc, processSegment_lastWordFoundAtIndex_of_some _ _ _ _ _ hm]
    exact Int.toNat_of_nonneg (by omega)
  · rw [runPass_snoc, processSegment_sub_of_some _ _ _ _ _ hm, setWord_getElem?, i1]
    simp only [if_true]
    obtain ⟨hlt, _⟩ := List.getElem?_eq_some.mp hnext
    have hlen : ((runPass frame_rate before sub).lastWordFoundAtIndex + 1).toNat <
        (runPass frame_rate before sub).sub.words.length := by
      rw [i2]
      simpa [lowercaseWords, SubtitleItem.getIndividualWords] using hlt
    rw [List.getElem?_eq_getElem hlen]
    exact ⟨_, rfl, rfl, rfl, rfl⟩

theorem exact_lexical_word_is_accepted_witness :
    skipSearchingThisWord "why".toList = false ∧ "why".toList ≠ [] ∧
      (lowercaseWords tomatoSub)[((runPass 100 [] tomatoSub).lastWordFoundAtIndex
        + 1).toNat]? = some "why".toList ∧
      (matchedIndex (lowercaseWords tomatoSub) (runPass 100 [] tomatoSub)
          ⟨"why".toList, 5, 29⟩ =
          some ((runPass 100 [] tomatoSub).lastWordFoundAtIndex + 1).toNat ∧
        (runPass 100 ([] ++ [⟨"why".toList, 5, 29⟩]) tomatoSub).lastWordFoundAtIndex =
          (runPass 100 [] tomatoSub).lastWordFoundAtIndex + 1 ∧
        ∃ w, (runPass 100 ([] ++ [⟨"why".toList, 5, 29⟩]) tomatoSub).sub.words[((runPass 100 []
            tomatoSub).lastWordFoundAtIndex + 1).toNat]? = some w ∧
          w.recognised = true ∧
          w.startTime = tomatoSub.startTime + frameOffsetMs 5 100 ∧
          w.endTime = tomatoSub.startTime + frameOffsetMs 29 100) :=
  ⟨by decide, by decide, by decide,
    exact_lexical_word_is_accepted 100 tomatoSub [] ⟨"why".toList, 5, 29⟩ (by decide)
      (by decide) (by decide)⟩

/-- C2 fails as stated: the segment `[music]` is character for character the next unmatched
reference word of `musicSub`, yet no index is found for it and the word is left as it was. -/
theorem exact_bracketed_word_is_not_accepted :
    (lowercaseWords musicSub)[((runPass 100 [] musicSub).lastWordFoundAtIndex + 1).toNat]? =
        some "[music]".toList ∧
      matchedIndex (lowercaseWords musicSub) (runPass 100 [] musicSub)
        ⟨"[music]".toList, 10, 50⟩ = none ∧
      (runPass 100 ([] ++ [⟨"[music]".toList, 10, 50⟩]) musicSub).lastWordFoundAtIndex = -1 ∧
      (runPass 100 ([] ++ [⟨"[music]".toList, 10, 50⟩]) musicSub).sub = musicSub := by
  decide

/-- C6, as the code has it: the window is measured from the number of segments appended to the
block, the current one included, matched or not. When the loop finds index `j` for segment
number `k` (counting from zero), `j` is at most `(k + 1) + 3`. -/
theorem matched_index_within_block_size_plus_three (frame_rate : Int)
    (segments : List Segment) (sub : SubtitleItem) (k j : Nat)
    (h : (passMatches frame_rate segments sub)[k]? = some (some j)) :
    j ≤ (k + 1) + 3 := by
  rw [passMatches, matchTrace_getElem?] at h
  cases hseg : segments[k]? with
  | none => simp [hseg] at h
  | some seg =>
    simp only [hseg, Option.map_some', Option.some.injEq] at h
    have hb := (matchedIndex_some _ _ _ _ h).2.2.1
    rw [foldl_processSegment_currentBlock] at hb
    have hk : k < segments.length := (List.getElem?_eq_some.mp hseg).1
    simp only [initialState, List.nil_append, List.length_map, List.length_take] at hb
    omega

theorem matched_index_within_block_size_plus_three_witness :
    (passMatches 100 [⟨"zzz".toList, 0, 10⟩, ⟨"hello".toList, 10, 20⟩] helloSub)[1]? =
        some (some 4) ∧ 4 ≤ (1 + 1) + 3 :=
  ⟨by decide!, matched_index_within_block_size_plus_three 100
    [⟨"zzz".toList, 0, 10⟩, ⟨"hello".toList, 10, 20⟩] helloSub 1 4 (by decide!)⟩

/-- C6 fails as stated: after one unmatched segment, the segment hello is matched to the
reference index 4 although no segment was matched before it, and 4 exceeds 0 + 3. -/
theorem matched_index_exceeds_matched_count_plus_three :
    passMatches 100 [⟨"zzz".toList, 0, 10⟩, ⟨"hello".toList, 10, 20⟩] helloSub =
        [none, some 4] ∧
      matchedBefore
        (passMatches 100 [⟨"zzz".toList, 0, 10⟩, ⟨"hello".toList, 10, 20⟩] helloSub) 1 = 0 ∧
      ¬ 4 ≤ matchedBefore
        (passMatches 100 [⟨"zzz".toList, 0, 10⟩, ⟨"hello".toList, 10, 20⟩] helloSub) 1 + 3 := by
  decide!

theorem lowercaseWords_lowercaseSub (sub : SubtitleItem) :
    lowercaseWords (lowercaseSub sub) = lowercaseWords sub := by
  simp [lowercaseWords, lowercaseSub, SubtitleItem.getIndividualWords, Function.comp_def,
    tolower_tolower]

theorem modifyWordAt_map (f g : Word → Word) (hfg : ∀ w, g (f w) = f (g w)) :
    ∀ (ws : List Word) (n : Nat), (modifyWordAt f ws n).map g = modifyWordAt f (ws.map g) n
  | [], _ => rfl
  | _ :: _, 0 => by simp [modifyWordAt, hfg]
  | _ :: ws, n + 1 => by simp [modifyWordAt, modifyWordAt_map f g hfg ws n]

theorem lowercaseSub_setWord (sub : SubtitleItem) (startTime endTime : Int) (j : Nat) :
    lowercaseSub ((sub.setWordRecognisedStatusByIndex true j).setWordTimesByIndex
        startTime endTime j) =
      ((lowercaseSub sub).setWordRecognisedStatusByIndex true j).setWordTimesByIndex
        startTime endTime j := by
  simp only [lowercaseSub, SubtitleItem.setWordTimesByIndex,
    SubtitleItem.setWordRecognisedStatusByIndex]
  have e1 := modifyWordAt_map
    (fun w : Word => (⟨w.text, w.recognised, startTime, endTime⟩ : Word))
    (fun w : Word => (⟨w.text.map tolower, w.recognised, w.startTime, w.endTime⟩ : Word))
    (fun _ => rfl)
  have e2 := modifyWordAt_map
    (fun w : Word => (⟨w.text, true, w.startTime, w.endTime⟩ : Word))
    (fun w : Word => (⟨w.text.map tolower, w.recognised, w.startTime, w.endTime⟩ : Word))
    (fun _ => rfl)
  rw [e1, e2]

theorem processSegment_lowercaseSub (frame_rate : Int) (words : List (List Char))
    (s : PassState) (seg : Segment) :
    processSegment frame_rate words ⟨s.lastWordFoundAtIndex, s.currentBlock, lowercaseSub s.sub⟩
        seg =
      ⟨(processSegment frame_rate words s seg).lastWordFoundAtIndex,
        (processSegment frame_rate words s seg).currentBlock,
        lowercaseSub (processSegment frame_rate words s seg).sub⟩ := by
  cases h : matchedIndex words s seg with
  | none =>
    have h2 : matchedIndex words ⟨s.lastWordFoundAtIndex, s.currentBlock, lowercaseSub s.sub⟩
        seg = none := h
    rw [processSegment_of_none _ _ _ _ h, processSegment_of_none _ _ _ _ h2]
    rfl
  | some j =>
    have h2 : matchedIndex words ⟨s.lastWordFoundAtIndex, s.currentBlock, lowercaseSub s.sub⟩
        seg = some j := h
    rw [processSegment_of_some _ _ _ _ j h, processSegment_of_some _ _ _ _ j h2]
    simp only [lowercaseSub_setWord]
    rfl

theorem foldl_processSegment_lowercaseSub (frame_rate : Int) (words : List (List Char)) :
    ∀ (segments : List Segment) (s : PassState),
      segments.foldl (processSegment frame_rate words)
          ⟨s.lastWordFoundAtIndex, s.currentBlock, lowercaseSub s.sub⟩ =
        ⟨(segments.foldl (processSegment frame_rate words) s).lastWordFoundAtIndex,
          (segments.foldl (processSegment frame_rate words) s).currentBlock,
          lowercaseSub (segments.foldl (processSegment frame_rate words) s).sub⟩
  | [], _ => rfl
  | seg :: rest, s => by
    rw [List.foldl_cons, processSegment_lowercaseSub,
      foldl_processSegment_lowercaseSub frame_rate words rest]
    rfl

theorem matchTrace_lowercaseSub (frame_rate : Int) (words : List (List Char)) :
    ∀ (segments : List Segment) (s : PassState),
      matchTrace frame_rate words ⟨s.lastWordFoundAtIndex, s.currentBlock, lowercaseSub s.sub⟩
          segments =
        matchTrace frame_rate words s segments
  | [], _ => rfl
  | seg :: rest, s => by
    rw [matchTrace, matchTrace, processSegment_lowercaseSub,
      matchTrace_lowercaseSub frame_rate words rest]
    rfl

/-- C8, as the code has it: the pass lowercases the reference words and compares the word of a
segment as the decoder delivers it. For every subtitle and every segment sequence the outcome
is the same as when every reference word is replaced by its lowercase form: the same index is
found for each segment, the same block is returned, and the words get the same recognised
flags and times. -/
theorem matching_ignores_case_of_reference_words (frame_rate : Int)
    (segments : List Segment) (sub : SubtitleItem) :
    passMatches frame_rate segments (lowercaseSub sub) = passMatches frame_rate segments sub ∧
      (findAndSetWordTimes frame_rate segments (lowercaseSub sub)).1 =
        (findAndSetWordTimes frame_rate segments sub).1 ∧
      (findAndSetWordTimes frame_rate segments (lowercaseSub sub)).2 =
        lowercaseSub (findAndSetWordTimes frame_rate segments sub).2 := by
  have hs : initialState (lowercaseSub sub) =
      ⟨(initialState sub).lastWordFoundAtIndex, (initialState sub).currentBlock,
        lowercaseSub (initialState sub).sub⟩ := rfl
  refine ⟨?_, ?_, ?_⟩
  · rw [passMatches, passMatches, lowercaseWords_lowercaseSub, hs, matchTrace_lowercaseSub]
  · simp only [findAndSetWordTimes, runPass]
    rw [lowercaseWords_lowercaseSub, hs, foldl_processSegment_lowercaseSub]
  · simp only [findAndSetWordTimes, runPass]
    rw [lowercaseWords_lowercaseSub, hs, foldl_processSegment_lowercaseSub]

/-- C8 fails as stated: against the reference word hello, the segment HELLO is not matched,
while its lowercase form is matched to index 0. -/
theorem uppercase_segment_is_not_matched :
    passMatches 100 [⟨"HELLO".toList, 0, 10⟩] ⟨0, [⟨"hello".toList, false, 0, 500⟩]⟩ =
        [none] ∧
      passMatches 100 (lowercaseSegments [⟨"HELLO".toList, 0, 10⟩])
        ⟨0, [⟨"hello".toList, false, 0, 500⟩]⟩ = [some 0] := by
  decide!

theorem foldl_processSegment_words_of_unmatched (frame_rate : Int) (words : List (List Char))
    (i : Nat) :
    ∀ (segments : List Segment) (s : PassState),
      some i ∉ matchTrace frame_rate words s segments →
        (segments.foldl (processSegment frame_rate words) s).sub.words[i]? = s.sub.words[i]?
  | [], _, _ => rfl
  | seg :: rest, s, h => by
    rw [matchTrace, List.mem_cons, not_or] at h
    rw [List.foldl_cons,
      foldl_processSegment_words_of_unmatched frame_rate words i rest _ h.2]
    cases hm : matchedIndex words s seg with
    | none => rw [processSegment_of_none _ _ _ _ hm]
    | some j =>
      have hij : ¬ i = j := by
        intro e
        exact h.1 (by rw [hm, e])
      rw [processSegment_sub_of_some _ _ _ _ j hm, setWord_getElem?]
      simp only [hij, if_false]

/-- C9: the pass changes only the words it matches. A reference word whose index is found for
no segment of the pass is after the pass exactly as before it (text, recognised flag, start and
end time); and a segment for which no candidate in its window passes the test writes to no
word and leaves `lastWordFoundAtIndex` as it was. -/
theorem pass_changes_only_matched_words (frame_rate : Int) (segments : List Segment)
    (sub : SubtitleItem) (i : Nat) (words : List (List Char)) (s : PassState) (seg : Segment) :
    (some i ∉ passMatches frame_rate segments sub →
        (findAndSetWordTimes frame_rate segments sub).2.words[i]? = sub.words[i]?) ∧
      ((∀ (c : Nat) w, s.lastWordFoundAtIndex < (c : Int) →
          c ≤ s.currentBlock.recognisedString.length + 1 + 3 → words[c]? = some w →
            possibleMatch w seg.word = false) →
        (processSegment frame_rate words s seg).sub = s.sub ∧
          (processSegment frame_rate words s seg).lastWordFoundAtIndex =
            s.lastWordFoundAtIndex) := by
  constructor
  · intro h
    exact foldl_processSegment_words_of_unmatched frame_rate _ i segments _ h
  · intro h
    rw [processSegment_of_none _ _ _ _ (matchedIndex_none_of_forall words s seg h)]
    exact ⟨rfl, rfl⟩

theorem pass_changes_only_matched_words_witness :
    some 0 ∉ passMatches 100 tomatoSegments tomatoSub ∧
      (findAndSetWordTimes 100 tomatoSegments tomatoSub).2.words[0]? = tomatoSub.words[0]? ∧
      (∀ (c : Nat) w, (initialState helloSub).lastWordFoundAtIndex < (c : Int) →
          c ≤ (initialState helloSub).currentBlock.recognisedString.length + 1 + 3 →
            ["a".toList][c]? = some w → possibleMatch w "zzz".toList = false) ∧
      (processSegment 100 ["a".toList] (initialState helloSub) ⟨"zzz".toList, 0, 10⟩).sub =
          (initialState helloSub).sub ∧
      (processSegment 100 ["a".toList] (initialState helloSub)
          ⟨"zzz".toList, 0, 10⟩).lastWordFoundAtIndex =
        (initialState helloSub).lastWordFoundAtIndex := by
  have h1 : some 0 ∉ passMatches 100 tomatoSegments tomatoSub := by decide!
  have h2 : ∀ (c : Nat) w, (initialState helloSub).lastWordFoundAtIndex < (c : Int) →
      c ≤ (initialState helloSub).currentBlock.recognisedString.length + 1 + 3 →
        ["a".toList][c]? = some w → possibleMatch w "zzz".toList = false := by
    intro c w _ _ hc
    cases c with
    | zero =>
      simp only [List.getElem?_cons_zero, Option.some.injEq] at hc
      subst hc
      decide!
    | succ c => simp at hc
  have h := pass_changes_only_matched_words 100 tomatoSegments tomatoSub 0 ["a".toList]
    (initialState helloSub) ⟨"zzz".toList, 0, 10⟩
  exact ⟨h1, h.1 h1, h2, (h.2 h2).1, (h.2 h2).2⟩

/-! ## Theorems: the edit distance as a metric -/

theorem editsTo_trans {n m : Nat} {a b c : List Char} (h1 : EditsTo n a b)
    (h2 : EditsTo m b c) : EditsTo (n + m) a c := by
  induction h1 with
  | done a => simpa using h2
  | @step n a b d hs _ ih =>
    have e : n + 1 + m = (n + m) + 1 := by omega
    rw [e]
    exact EditsTo.step hs (ih h2)

theorem editsTo_symm {n : Nat} {a b : List Char} (h : EditsTo n a b) : EditsTo n b a := by
  induction h with
  | done a => exact EditsTo.done a
  | @step n a b c hs _ ih =>
    exact editsTo_trans ih (EditsTo.step (editStep_symm hs) (EditsTo.done a))

theorem lev_symm (a b : List Char) : lev a b = lev b a :=
  le_antisymm (editsTo_lev_le (editsTo_symm (editsTo_of_lev b a)))
    (editsTo_lev_le (editsTo_symm (editsTo_of_lev a b)))

theorem lev_triangle (a b c : List Char) : lev a c ≤ lev a b + lev b c :=
  editsTo_lev_le (editsTo_trans (editsTo_of_lev a b) (editsTo_of_lev b c))

theorem lev_eq_zero_iff (a b : List Char) : lev a b = 0 ↔ a = b := by
  constructor
  · intro h
    have hc := editsTo_of_lev a b
    rw [h] at hc
    cases hc
    rfl
  · intro h
    rw [h, lev_self]

/-- C14: `levenshtein_distance` is symmetric, although its loops index the rows by the first
word and the columns by the second. -/
theorem levenshtein_distance_symmetric (a b : List Char) :
    levenshtein_distance a b = levenshtein_distance b a := by
  rw [levenshtein_distance_eq_lev, levenshtein_distance_eq_lev, lev_symm]

/-- C15: `levenshtein_distance` satisfies the triangle inequality. -/
theorem levenshtein_distance_triangle (a b c : List Char) :
    levenshtein_distance a c ≤ levenshtein_distance a b + levenshtein_distance b c := by
  rw [levenshtein_distance_eq_lev, levenshtein_distance_eq_lev, levenshtein_distance_eq_lev]
  exact lev_triangle a b c

/-- C16: the distance from a string to itself is zero, for every string and for the empty
string in particular. -/
theorem levenshtein_distance_self_eq_zero (a : List Char) :
    levenshtein_distance a a = 0 ∧ levenshtein_distance [] [] = 0 := by
  rw [levenshtein_distance_eq_lev, levenshtein_distance_eq_lev, lev_self]
  exact ⟨rfl, lev_self []⟩

/-- C18: the test `distance < largerLength * 0.25` is the integer test
`4 * distance < largerLength`. So a word and a segment whose longer length is at most 4 are
accepted exactly when they are the same non-empty string; the empty segment does not match the
empty word; and a pair at distance one is accepted exactly when the longer length is at least
5. -/
theorem threshold_is_integer_test (distance largerLength : Nat)
    (word recognisedWord : List Char) :
    ((((distance : ℚ) < (largerLength : ℚ) * 0.25) ↔ 4 * distance < largerLength) ∧
        (atLeast75PercentMatch distance largerLength = true ↔ 4 * distance < largerLength)) ∧
      (max word.length recognisedWord.length ≤ 4 →
        (possibleMatch word recognisedWord = true ↔
          word = recognisedWord ∧ word ≠ [])) ∧
      possibleMatch [] [] = false ∧
      (levenshtein_distance word recognisedWord = 1 →
        (possibleMatch word recognisedWord = true ↔
          5 ≤ max word.length recognisedWord.length)) := by
  refine ⟨⟨?_, atLeast75PercentMatch_iff _ _⟩, ?_, ?_, ?_⟩
  · rw [← atLeast75PercentMatch_iff]
    unfold atLeast75PercentMatch
    rw [decide_eq_true_iff]
  · intro hlen
    rw [possibleMatch_iff, levenshtein_distance_eq_lev]
    constructor
    · intro h
      have h0 : lev word recognisedWord = 0 := by omega
      have he := (lev_eq_zero_iff _ _).mp h0
      refine ⟨he, ?_⟩
      intro hnil
      subst he
      subst hnil
      simp at h
    · rintro ⟨he, hne⟩
      subst he
      rw [lev_self]
      cases word with
      | nil => exact absurd rfl hne
      | cons c w => simp
  · rw [Bool.eq_false_iff]
    intro h
    rw [possibleMatch_iff] at h
    simp at h
  · intro h1
    rw [possibleMatch_iff, h1]
    omega

theorem threshold_is_integer_test_witness :
    max "cat".toList.length "cat".toList.length ≤ 4 ∧
      (possibleMatch "cat".toList "cat".toList = true ↔
        "cat".toList = "cat".toList ∧ "cat".toList ≠ []) ∧
      levenshtein_distance "hello".toList "hallo".toList = 1 ∧
      (possibleMatch "hello".toList "hallo".toList = true ↔
        5 ≤ max "hello".toList.length "hallo".toList.length) :=
  ⟨by decide,
    (threshold_is_integer_test 0 3 "cat".toList "cat".toList).2.1 (by decide),
    by decide,
    (threshold_is_integer_test 1 5 "hello".toList "hallo".toList).2.2.2 (by decide)⟩

/-! ## Theorems: the order of the matches in a pass -/

theorem matchTrace_append (frame_rate : Int) (words : List (List Char)) :
    ∀ (l1 l2 : List Segment) (s : PassState),
      matchTrace frame_rate words s (l1 ++ l2) =
        matchTrace frame_rate words s l1 ++
          matchTrace frame_rate words (l1.foldl (processSegment frame_rate words) s) l2
  | [], _, _ => rfl
  | seg :: rest, l2, s => by
    simp [matchTrace, matchTrace_append frame_rate words rest l2]

theorem matchTrace_length (frame_rate : Int) (words : List (List Char)) :
    ∀ (segments : List Segment) (s : PassState),
      (matchTrace frame_rate words s segments).length = segments.length
  | [], _ => rfl
  | seg :: rest, s => by simp [matchTrace, matchTrace_length frame_rate words rest]

theorem foldl_processSegment_lastWordFoundAtIndex_le (frame_rate : Int)
    (words : List (List Char)) :
    ∀ (segments : List Segment) (s : PassState),
      s.lastWordFoundAtIndex ≤
        (segments.foldl (processSegment frame_rate words) s).lastWordFoundAtIndex
  | [], _ => le_refl _
  | seg :: rest, s =>
    le_trans (processSegment_lastWordFoundAtIndex_le frame_rate words s seg)
      (foldl_processSegment_lastWordFoundAtIndex_le frame_rate words rest _)

/-- Every index found in a pass that starts in state `s` lies above `lastWordFoundAtIndex`
of `s`. -/
theorem lastWordFoundAtIndex_lt_of_mem_matchTrace (frame_rate : Int)
    (words : List (List Char)) (j : Nat) :
    ∀ (segments : List Segment) (s : PassState),
      some j ∈ matchTrace frame_rate words s segments → s.lastWordFoundAtIndex < (j : Int)
  | [], _, h => by simp [matchTrace] at h
  | seg :: rest, s, h => by
    rw [matchTrace, List.mem_cons] at h
    rcases h with h | h
    · exact (matchedIndex_some words s seg j h.symm).2.1
    · have h1 := lastWordFoundAtIndex_lt_of_mem_matchTrace frame_rate words j rest _ h
      have h2 := processSegment_lastWordFoundAtIndex_le frame_rate words s seg
      omega

/-- The indices found in a pass increase strictly along the segments. -/
theorem matchTrace_pairwise (frame_rate : Int) (words : List (List Char)) :
    ∀ (segments : List Segment) (s : PassState),
      (matchTrace frame_rate words s segments).Pairwise
        (fun x y => ∀ i j, x = some i → y = some j → i < j)
  | [], _ => by simp [matchTrace]
  | seg :: rest, s => by
    rw [matchTrace, List.pairwise_cons]
    refine ⟨?_, matchTrace_pairwise frame_rate words rest _⟩
    intro y hy i j hi hj
    subst hj
    have h1 := lastWordFoundAtIndex_lt_of_mem_matchTrace frame_rate words j rest _ hy
    rw [processSegment_lastWordFoundAtIndex_of_some _ _ _ _ i hi] at h1
    omega

theorem matchTrace_lt_of_lt (frame_rate : Int) (words : List (List Char))
    (segments : List Segment) (s : PassState) (k k' i i' : Nat) (hk : k < k')
    (h : (matchTrace frame_rate words s segments)[k]? = some (some i))
    (h' : (matchTrace frame_rate words s segments)[k']? = some (some i')) : i < i' := by
  have hp := matchTrace_pairwise frame_rate words segments s
  obtain ⟨hlt, hget⟩ := List.getElem?_eq_some.mp h
  obtain ⟨hlt', hget'⟩ := List.getElem?_eq_some.mp h'
  exact List.pairwise_iff_getElem.mp hp k k' hlt hlt' hk i i' hget hget'

theorem matchTrace_index_unique (frame_rate : Int) (words : List (List Char))
    (segments : List Segment) (s : PassState) (k k' i : Nat)
    (h : (matchTrace frame_rate words s segments)[k]? = some (some i))
    (h' : (matchTrace frame_rate words s segments)[k']? = some (some i)) : k = k' := by
  rcases Nat.lt_trichotomy k k' with hlt | heq | hgt
  · exact absurd (matchTrace_lt_of_lt _ _ _ _ _ _ _ _ hlt h h') (lt_irrefl _)
  · exact heq
  · exact absurd (matchTrace_lt_of_lt _ _ _ _ _ _ _ _ hgt h' h) (lt_irrefl _)

theorem foldl_processSegment_words_length (frame_rate : Int) (words : List (List Char)) :
    ∀ (segments : List Segment) (s : PassState),
      (segments.foldl (processSegment frame_rate words) s).sub.words.length =
        s.sub.words.length
  | [], _ => rfl
  | seg :: rest, s => by
    rw [List.foldl_cons, foldl_processSegment_words_length frame_rate words rest,
      processSegment_words_length]

/-- C17: within one pass each reference word is written at most once. A match sets
`lastWordFoundAtIndex` to an index strictly above its previous value; hence no index is found
for two different segments of the pass; and the subtitle has as many words after the pass as
before. -/
theorem each_word_matched_at_most_once (frame_rate : Int) (segments : List Segment)
    (sub : SubtitleItem) :
    (∀ (before : List Segment) (seg : Segment) (j : Nat),
        matchedIndex (lowercaseWords sub) (runPass frame_rate before sub) seg = some j →
          (runPass frame_rate before sub).lastWordFoundAtIndex < (j : Int) ∧
            (runPass frame_rate (before ++ [seg]) sub).lastWordFoundAtIndex = (j : Int)) ∧
      (∀ (k k' i : Nat), (passMatches frame_rate segments sub)[k]? = some (some i) →
        (passMatches frame_rate segments sub)[k']? = some (some i) → k = k') ∧
      (findAndSetWordTimes frame_rate segments sub).2.words.length = sub.words.length := by
  refine ⟨?_, ?_, ?_⟩
  · intro before seg j h
    refine ⟨(matchedIndex_some _ _ _ _ h).2.1, ?_⟩
    rw [runPass_snoc, processSegment_lastWordFoundAtIndex_of_some _ _ _ _ j h]
  · intro k k' i h h'
    exact matchTrace_index_unique _ _ _ _ _ _ _ h h'
  · exact foldl_processSegment_words_length _ _ _ _

theorem each_word_matched_at_most_once_witness :
    matchedIndex (lowercaseWords tomatoSub) (runPass 100 [] tomatoSub)
        ⟨"would".toList, 30, 55⟩ = some 1 ∧
      (passMatches 100 tomatoSegments tomatoSub)[1]? = some (some 2) ∧
      ((runPass 100 [] tomatoSub).lastWordFoundAtIndex < ((1 : Nat) : Int) ∧
        (runPass 100 ([] ++ [⟨"would".toList, 30, 55⟩]) tomatoSub).lastWordFoundAtIndex =
          ((1 : Nat) : Int)) ∧
      1 = 1 ∧
      (findAndSetWordTimes 100 tomatoSegments tomatoSub).2.words.length =
        tomatoSub.words.length :=
  ⟨by decide!, by decide!,
    (each_word_matched_at_most_once 100 tomatoSegments tomatoSub).1 []
      ⟨"would".toList, 30, 55⟩ 1 (by decide!),
    (each_word_matched_at_most_once 100 tomatoSegments tomatoSub).2.1 1 1 2 (by decide!)
      (by decide!),
    (each_word_matched_at_most_once 100 tomatoSegments tomatoSub).2.2⟩

/-- C19: in every state a pass reaches, `lastWordFoundAtIndex` is at most the number of
segments appended to the block plus three. Hence, for a segment that the guard does not skip,
the first candidate `lastWordFoundAtIndex + 1`, when it is an index of a word, passes the
window check and is compared with the segment: it is the match if it passes the test, and
otherwise the search goes on from the next index. -/
theorem first_candidate_is_always_compared (frame_rate : Int) (sub : SubtitleItem)
    (before : List Segment) (seg : Segment) (w : List Char) :
    (runPass frame_rate before sub).lastWordFoundAtIndex ≤
        ((runPass frame_rate before sub).currentBlock.recognisedString.length : Int) + 3 ∧
      (runPass frame_rate before sub).currentBlock.recognisedString.length = before.length ∧
      (skipSearchingThisWord seg.word = false →
        (lowercaseWords sub)[((runPass frame_rate before sub).lastWordFoundAtIndex
          + 1).toNat]? = some w →
        ¬ ((runPass frame_rate before sub).lastWordFoundAtIndex + 1).toNat >
            (before.length + 1) + 3 ∧
          matchedIndex (lowercaseWords sub) (runPass frame_rate before sub) seg =
            if possibleMatch w seg.word then
              some ((runPass frame_rate before sub).lastWordFoundAtIndex + 1).toNat
            else
              searchWords seg.word (before.length + 1) 3
                ((lowercaseWords sub).drop
                  (((runPass frame_rate before sub).lastWordFoundAtIndex + 1).toNat + 1))
                (((runPass frame_rate before sub).lastWordFoundAtIndex + 1).toNat + 1)) := by
  obtain ⟨_, _, i3, i4⟩ := runPass_invariant frame_rate before sub
  have hsize : (runPass frame_rate before sub).currentBlock.recognisedString.length =
      before.length := by
    simp [runPass, foldl_processSegment_currentBlock, initialState]
  refine ⟨i4, hsize, ?_⟩
  intro hskip hw
  rw [hsize] at i4
  have hwin : ¬ ((runPass frame_rate before sub).lastWordFoundAtIndex + 1).toNat >
      (before.length + 1) + 3 := by omega
  refine ⟨hwin, ?_⟩
  unfold matchedIndex
  simp only [hskip, hsize]
  obtain ⟨hlt, hget⟩ := List.getElem?_eq_some.mp hw
  rw [List.drop_eq_getElem_cons hlt, hget, searchWords]
  simp only [hwin, if_false]
  rfl

theorem first_candidate_is_always_compared_witness :
    skipSearchingThisWord "would".toList = false ∧
      (lowercaseWords tomatoSub)[((runPass 100 [] tomatoSub).lastWordFoundAtIndex
        + 1).toNat]? = some "why".toList ∧
      (¬ ((runPass 100 [] tomatoSub).lastWordFoundAtIndex + 1).toNat >
            (([] : List Segment).length + 1) + 3 ∧
          matchedIndex (lowercaseWords tomatoSub) (runPass 100 [] tomatoSub)
              ⟨"would".toList, 30, 55⟩ =
            if possibleMatch "why".toList "would".toList then
              some ((runPass 100 [] tomatoSub).lastWordFoundAtIndex + 1).toNat
            else
              searchWords "would".toList (([] : List Segment).length + 1) 3
                ((lowercaseWords tomatoSub).drop
                  (((runPass 100 [] tomatoSub).lastWordFoundAtIndex + 1).toNat + 1))
                (((runPass 100 [] tomatoSub).lastWordFoundAtIndex + 1).toNat + 1)) :=
  ⟨by decide, by decide,
    (first_candidate_is_always_compared 100 tomatoSub [] ⟨"would".toList, 30, 55⟩
      "why".toList).2.2 (by decide) (by decide)⟩

/-! ## Theorems: the times a full pass leaves in the words -/

theorem tdiv_le_tdiv_of_le (a b c : Int) (hc : 0 < c) (hab : a ≤ b) :
    a.tdiv c ≤ b.tdiv c := by
  rcases le_or_lt 0 a with ha | ha
  · rw [Int.tdiv_eq_ediv ha (le_of_lt hc), Int.tdiv_eq_ediv (le_trans ha hab) (le_of_lt hc)]
    exact Int.ediv_le_ediv hc hab
  · have hna : a.tdiv c ≤ 0 := by
      have h := Int.tdiv_nonneg (a := -a) (b := c) (by omega) (le_of_lt hc)
      rw [Int.neg_tdiv] at h
      omega
    rcases le_or_lt 0 b with hb | hb
    · exact le_trans hna (Int.tdiv_nonneg hb (le_of_lt hc))
    · have h1 : (-b).tdiv c ≤ (-a).tdiv c := by
        rw [Int.tdiv_eq_ediv (by omega) (le_of_lt hc), Int.tdiv_eq_ediv (by omega) (le_of_lt hc)]
        exact Int.ediv_le_ediv hc (by omega)
      rw [Int.neg_tdiv, Int.neg_tdiv] at h1
      omega

/-- The word at an index found for segment `k` holds, at the end of the pass, the times of
that segment. -/
theorem foldl_processSegment_word_of_matched (frame_rate : Int) (words : List (List Char)) :
    ∀ (segments : List Segment) (s : PassState) (k i : Nat),
      (matchTrace frame_rate words s segments)[k]? = some (some i) →
        ∃ seg, segments[k]? = some seg ∧
          (segments.foldl (processSegment frame_rate words) s).sub.words[i]? =
            s.sub.words[i]?.map (fun w =>
              ⟨w.text, true, s.sub.startTime + frameOffsetMs seg.sf frame_rate,
                s.sub.startTime + frameOffsetMs seg.ef frame_rate⟩)
  | [], _, _, _, h => by simp [matchTrace] at h
  | seg :: rest, s, 0, i, h => by
    have hm : matchedIndex words s seg = some i := by simpa [matchTrace] using h
    refine ⟨seg, by simp, ?_⟩
    have hnot : some i ∉ matchTrace frame_rate words
        (processSegment frame_rate words s seg) rest := by
      intro hmem
      have := lastWordFoundAtIndex_lt_of_mem_matchTrace frame_rate words i rest _ hmem
      rw [processSegment_lastWordFoundAtIndex_of_some _ _ _ _ i hm] at this
      omega
    rw [List.foldl_cons, foldl_processSegment_words_of_unmatched frame_rate words i rest _ hnot,
      processSegment_sub_of_some _ _ _ _ i hm, setWord_getElem?]
    simp
  | seg :: rest, s, k + 1, i, h => by
    have h2 : (matchTrace frame_rate words (processSegment frame_rate words s seg) rest)[k]? =
        some (some i) := by simpa [matchTrace] using h
    obtain ⟨seg', hseg', hw⟩ :=
      foldl_processSegment_word_of_matched frame_rate words rest _ k i h2
    refine ⟨seg', by simpa using hseg', ?_⟩
    rw [List.foldl_cons, hw, processSegment_startTime]
    have hsame : (processSegment frame_rate words s seg).sub.words[i]? = s.sub.words[i]? := by
      cases hm : matchedIndex words s seg with
      | none => rw [processSegment_of_none _ _ _ _ hm]
      | some j =>
        have h0 : (matchTrace frame_rate words s (seg :: rest))[0]? = some (some j) := by
          simp [matchTrace, hm]
        have hlt := matchTrace_lt_of_lt frame_rate words (seg :: rest) s 0 (k + 1) j i
          (by omega) h0 h
        have hij : ¬ i = j := by omega
        rw [processSegment_sub_of_some _ _ _ _ j hm, setWord_getElem?]
        simp only [hij, if_false]
    rw [hsame]

/-- C13, as the code has it: in a pass that finds every reference word, with a positive frame
rate and segments whose start frame is at most their end frame, whose start frames do not
decrease along the segmentation, and whose frames times 1000 fit in a 32-bit `int`, the pass
does not trap, every word ends with a start time at most its end time, and the start times of
consecutive words do not decrease. -/
theorem full_pass_leaves_ordered_times (frame_rate : Int) (segments : List Segment)
    (sub : SubtitleItem) (hrate : 0 < frame_rate)
    (hframes : ∀ seg ∈ segments, seg.sf ≤ seg.ef)
    (horder : segments.Pairwise (fun x y => x.sf ≤ y.sf))
    (hfits : ∀ seg ∈ segments,
      fitsInt32 (seg.sf * 1000) = true ∧ fitsInt32 (seg.ef * 1000) = true)
    (hall : ∀ i, i < sub.words.length → some i ∈ passMatches frame_rate segments sub) :
    passTraps frame_rate segments = false ∧
    (∀ (i : Nat) (w : Word),
        (findAndSetWordTimes frame_rate segments sub).2.words[i]? = some w →
          w.startTime ≤ w.endTime) ∧
      (∀ (i : Nat) (w w' : Word), (findAndSetWordTimes frame_rate segments sub).2.words[i]? = some w →
        (findAndSetWordTimes frame_rate segments sub).2.words[i + 1]? = some w' →
          w.startTime ≤ w'.startTime) := by
  have hlen : (findAndSetWordTimes frame_rate segments sub).2.words.length =
      sub.words.length := foldl_processSegment_words_length _ _ _ _
  have key : ∀ (i : Nat) (w : Word), (findAndSetWordTimes frame_rate segments sub).2.words[i]? = some w →
      ∃ (k : Nat) (seg : Segment), (passMatches frame_rate segments sub)[k]? = some (some i) ∧
        segments[k]? = some seg ∧
        w.startTime = sub.startTime + frameOffsetMs seg.sf frame_rate ∧
        w.endTime = sub.startTime + frameOffsetMs seg.ef frame_rate := by
    intro i w hw
    have hi : i < sub.words.length := by
      rw [← hlen]
      exact (List.getElem?_eq_some.mp hw).1
    obtain ⟨k, hk⟩ := List.mem_iff_getElem?.mp (hall i hi)
    obtain ⟨seg, hseg, hfin⟩ :=
      foldl_processSegment_word_of_matched frame_rate _ segments _ k i hk
    refine ⟨k, seg, hk, hseg, ?_⟩
    have hfin2 : (findAndSetWordTimes frame_rate segments sub).2.words[i]? =
        (initialState sub).sub.words[i]?.map (fun w =>
          ⟨w.text, true, (initialState sub).sub.startTime + frameOffsetMs seg.sf frame_rate,
            (initialState sub).sub.startTime + frameOffsetMs seg.ef frame_rate⟩) := hfin
    rw [hw] at hfin2
    have h0 : (initialState sub).sub.words[i]? = some (sub.words[i]) :=
      List.getElem?_eq_getElem hi
    rw [h0, Option.map_some', Option.some.injEq] at hfin2
    subst hfin2
    exact ⟨rfl, rfl⟩
  refine ⟨passTraps_of_fits frame_rate segments (by omega) hfits, ?_, ?_⟩
  · intro i w hw
    obtain ⟨k, seg, _, hseg, hs, he⟩ := key i w hw
    have hmem : seg ∈ segments := List.mem_iff_getElem?.mpr ⟨k, hseg⟩
    rw [hs, he, frameOffsetMs_of_fits _ _ (hfits seg hmem).1,
      frameOffsetMs_of_fits _ _ (hfits seg hmem).2]
    have := tdiv_le_tdiv_of_le (seg.sf * 1000) (seg.ef * 1000) frame_rate hrate
      (by have := hframes seg hmem; omega)
    omega
  · intro i w w' hw hw'
    obtain ⟨k, seg, hk, hseg, hs, _⟩ := key i w hw
    obtain ⟨k', seg', hk', hseg', hs', _⟩ := key (i + 1) w' hw'
    have hkk : k < k' := by
      rcases Nat.lt_trichotomy k k' with hlt | heq | hgt
      · exact hlt
      · subst heq
        rw [hk] at hk'
        simp at hk'
      · have := matchTrace_lt_of_lt _ _ _ _ _ _ _ _ hgt hk' hk
        omega
    obtain ⟨hlt, hget⟩ := List.getElem?_eq_some.mp hseg
    obtain ⟨hlt', hget'⟩ := List.getElem?_eq_some.mp hseg'
    have hsf : seg.sf ≤ seg'.sf := by
      rw [← hget, ← hget']
      exact List.pairwise_iff_getElem.mp horder k k' hlt hlt' hkk
    have hmem : seg ∈ segments := List.mem_iff_getElem?.mpr ⟨k, hseg⟩
    have hmem' : seg' ∈ segments := List.mem_iff_getElem?.mpr ⟨k', hseg'⟩
    rw [hs, hs', frameOffsetMs_of_fits _ _ (hfits seg hmem).1,
      frameOffsetMs_of_fits _ _ (hfits seg' hmem').1]
    have := tdiv_le_tdiv_of_le (seg.sf * 1000) (seg'.sf * 1000) frame_rate hrate (by omega)
    omega

theorem full_pass_leaves_ordered_times_witness :
    (0 : Int) < 100 ∧ (∀ seg ∈ whyTomatoSegments, seg.sf ≤ seg.ef) ∧
      whyTomatoSegments.Pairwise (fun x y => x.sf ≤ y.sf) ∧
      (∀ seg ∈ whyTomatoSegments,
        fitsInt32 (seg.sf * 1000) = true ∧ fitsInt32 (seg.ef * 1000) = true) ∧
      (∀ i, i < tomatoSub.words.length →
        some i ∈ passMatches 100 whyTomatoSegments tomatoSub) ∧
      (passTraps 100 whyTomatoSegments = false ∧
        (∀ (i : Nat) (w : Word),
          (findAndSetWordTimes 100 whyTomatoSegments tomatoSub).2.words[i]? = some w →
            w.startTime ≤ w.endTime) ∧
        (∀ (i : Nat) (w w' : Word),
          (findAndSetWordTimes 100 whyTomatoSegments tomatoSub).2.words[i]? = some w →
          (findAndSetWordTimes 100 whyTomatoSegments tomatoSub).2.words[i + 1]? = some w' →
            w.startTime ≤ w'.startTime)) :=
  ⟨by decide, by decide, by decide, by decide, by decide!,
    full_pass_leaves_ordered_times 100 whyTomatoSegments tomatoSub (by decide) (by decide)
      (by decide) (by decide) (by decide!)⟩

/-- C13 fails as stated: the one segment of `lateSegments` has its start frame at most its
end frame, the frame rate 100 is positive and the only word is found, yet the word ends with
the start time 21474830 and the end time -21474832. -/
theorem late_segment_ends_before_it_starts :
    (0 : Int) < 100 ∧ (∀ seg ∈ lateSegments, seg.sf ≤ seg.ef) ∧
      lateSegments.Pairwise (fun x y => x.sf ≤ y.sf) ∧
      (∀ i, i < whySub.words.length → some i ∈ passMatches 100 lateSegments whySub) ∧
      passTraps 100 lateSegments = false ∧
      (findAndSetWordTimes 100 lateSegments whySub).2.words =
        [⟨"why".toList, true, 21474830, -21474832⟩] ∧
      ¬ ((21474830 : Int) ≤ -21474832) := by
  decide!

/-! ## Theorems: continuous transcription -/

theorem closePoints_length (previous : Bool) (chunk : Nat) :
    ∀ (classification : List Bool),
      (closePoints previous chunk classification).length =
        countRunStarts previous classification + (if previous then 1 else 0) := by
  intro classification
  induction classification generalizing previous chunk with
  | nil => cases previous <;> simp [closePoints, countRunStarts]
  | cons b rest ih =>
    cases previous <;> cases b <;> simp [closePoints, countRunStarts, ih, Nat.add_comm]

theorem fedChunks_append (l1 l2 : List DecoderCall) :
    fedChunks (l1 ++ l2) = fedChunks l1 ++ fedChunks l2 := by
  induction l1 with
  | nil => rfl
  | cons c rest ih => cases c <;> simp [fedChunks, ih]

theorem fedChunks_transcribeEnd (numberOfPartitions : Nat) (hyp : Nat → Bool)
    (utt_started : Bool) : fedChunks (transcribeEnd numberOfPartitions hyp utt_started) = [] := by
  unfold transcribeEnd
  cases utt_started <;> cases hyp (numberOfPartitions + 1) <;> simp [fedChunks]

theorem fedChunks_transcribeLoop (numberOfPartitions remainingSamples : Nat)
    (in_speech hyp : Nat → Bool) :
    ∀ (count start : Nat) (utt_started : Bool),
      fedChunks (transcribeLoop numberOfPartitions remainingSamples in_speech hyp
          (List.range' start count) (2048 * start) utt_started).2 =
        (List.range' start count).map (fun i =>
          (2048 * i, if i = numberOfPartitions then remainingSamples else 2048))
  | 0, _, _ => by simp [transcribeLoop, fedChunks]
  | count + 1, start, utt_started => by
    have ih := fedChunks_transcribeLoop numberOfPartitions remainingSamples in_speech hyp
      count (start + 1)
    have e : 2048 * start + 2048 = 2048 * (start + 1) := by omega
    rw [List.range'_succ, transcribeLoop, e]
    by_cases hi : start = numberOfPartitions
    · subst hi
      cases hb : in_speech start <;> cases utt_started <;> cases hh : hyp start <;>
        simp [hb, hh, fedChunks, fedChunks_append, ih]
    · cases hb : in_speech start <;> cases utt_started <;> cases hh : hyp start <;>
        simp [hi, hb, hh, fedChunks, fedChunks_append, ih]

/-- The chunks of a whole run of `transcribe`, in order. -/
theorem fedChunks_transcribe (samplesSize : Nat) (in_speech hyp : Nat → Bool) :
    fedChunks (transcribe samplesSize in_speech hyp) =
      (List.range (samplesSize / 2048 + 1)).map (fun i =>
        (2048 * i, if i = samplesSize / 2048 then samplesSize % 2048 else 2048)) := by
  have h : ∀ l, fedChunks (DecoderCall.ps_start_utt :: l) = fedChunks l := fun _ => rfl
  unfold transcribe
  rw [h, fedChunks_append, fedChunks_transcribeEnd, List.append_nil, List.range_eq_range']
  exact fedChunks_transcribeLoop _ _ _ _ _ 0 false

theorem flatten_full_chunks :
    ∀ (count : Nat),
      ((List.range count).map (fun i => List.range' (2048 * i) 2048)).flatten =
        List.range' 0 (2048 * count)
  | 0 => rfl
  | count + 1 => by
    rw [List.range_succ, List.map_append, List.flatten_append, flatten_full_chunks count]
    simp only [List.map_cons, List.map_nil, List.flatten_cons, List.flatten_nil,
      List.append_nil]
    have h := List.range'_append 0 (2048 * count) 2048 1
    simp only [Nat.zero_add, Nat.one_mul] at h
    rw [h]
    congr 1
    omega

theorem closedUtterances_transcribeEnd (numberOfPartitions : Nat) (hyp : Nat → Bool)
    (utt_started : Bool) (fed : Nat) :
    closedUtterances (transcribeEnd numberOfPartitions hyp utt_started) fed =
      if utt_started then [⟨fed, hyp (numberOfPartitions + 1), false⟩] else [] := by
  unfold transcribeEnd
  cases utt_started <;> cases hyp (numberOfPartitions + 1) <;>
    simp [closedUtterances, nextIsPrint, nextIsStart]

theorem closedUtterances_transcribeLoop (numberOfPartitions remainingSamples : Nat)
    (in_speech hyp : Nat → Bool) :
    ∀ (count start sample : Nat) (utt_started : Bool),
      start + count = numberOfPartitions + 1 →
      closedUtterances
          ((transcribeLoop numberOfPartitions remainingSamples in_speech hyp
              (List.range' start count) sample utt_started).2 ++
            transcribeEnd numberOfPartitions hyp
              (transcribeLoop numberOfPartitions remainingSamples in_speech hyp
                (List.range' start count) sample utt_started).1) start =
        expectedCloses hyp utt_started start ((List.range' start count).map in_speech)
  | 0, start, sample, utt_started, h => by
    have e : start = numberOfPartitions + 1 := by omega
    subst e
    simp [transcribeLoop, closedUtterances_transcribeEnd, expectedCloses]
  | count + 1, start, sample, utt_started, h => by
    have ih := closedUtterances_transcribeLoop numberOfPartitions remainingSamples in_speech hyp
      count (start + 1) (sample + 2048)
    have hc : start + 1 + count = numberOfPartitions + 1 := by omega
    rw [List.range'_succ, transcribeLoop]
    by_cases hi : start = numberOfPartitions
    · subst hi
      cases hb : in_speech start <;> cases utt_started <;> cases hh : hyp start <;>
        simp [hb, hh, closedUtterances, nextIsPrint, nextIsStart, expectedCloses, ih _ hc]
    · cases hb : in_speech start <;> cases utt_started <;> cases hh : hyp start <;>
        simp [hi, hb, hh, closedUtterances, nextIsPrint, nextIsStart, expectedCloses, ih _ hc]

/-- The closes of a whole run of `transcribe`, each with its emission and its restart, are
those the classification calls for. -/
theorem closedUtterances_transcribe (samplesSize : Nat) (in_speech hyp : Nat → Bool) :
    closedUtterances (transcribe samplesSize in_speech hyp) 0 =
      expectedCloses hyp false 0 ((List.range (samplesSize / 2048 + 1)).map in_speech) := by
  have h : ∀ l, closedUtterances (DecoderCall.ps_start_utt :: l) 0 = closedUtterances l 0 :=
    fun _ => rfl
  unfold transcribe
  rw [h, List.range_eq_range']
  exact closedUtterances_transcribeLoop _ _ _ _ _ 0 0 false (by omega)

theorem expectedCloses_map_chunk (hyp : Nat → Bool) :
    ∀ (classification : List Bool) (previous : Bool) (chunk : Nat),
      (expectedCloses hyp previous chunk classification).map ClosedUtterance.chunk =
        closePoints previous chunk classification
  | [], previous, chunk => by cases previous <;> simp [expectedCloses, closePoints]
  | b :: rest, previous, chunk => by
    cases previous <;> cases b <;>
      simp [expectedCloses, closePoints, expectedCloses_map_chunk hyp rest]

theorem utteranceProtocol_transcribeEnd (numberOfPartitions : Nat) (hyp : Nat → Bool)
    (utt_started : Bool) :
    utteranceProtocol (transcribeEnd numberOfPartitions hyp utt_started) true = some false := by
  unfold transcribeEnd
  cases utt_started <;> cases hyp (numberOfPartitions + 1) <;> simp [utteranceProtocol]

theorem utteranceProtocol_transcribeLoop (numberOfPartitions remainingSamples : Nat)
    (in_speech hyp : Nat → Bool) (tail : List DecoderCall) :
    ∀ (indices : List Nat) (sample : Nat) (utt_started : Bool),
      utteranceProtocol
          ((transcribeLoop numberOfPartitions remainingSamples in_speech hyp indices sample
              utt_started).2 ++ tail) true =
        utteranceProtocol tail true
  | [], sample, utt_started => by simp [transcribeLoop]
  | i :: rest, sample, utt_started => by
    have ih := utteranceProtocol_transcribeLoop numberOfPartitions remainingSamples in_speech
      hyp tail rest (sample + 2048)
    rw [transcribeLoop]
    by_cases hi : i = numberOfPartitions
    · subst hi
      cases hb : in_speech i <;> cases utt_started <;> cases hh : hyp i <;>
        simp [hb, hh, utteranceProtocol, ih]
    · cases hb : in_speech i <;> cases utt_started <;> cases hh : hyp i <;>
        simp [hi, hb, hh, utteranceProtocol, ih]

/-- The calls of a whole run of `transcribe` keep the protocol of the decoder and leave no
utterance open. -/
theorem utteranceProtocol_transcribe (samplesSize : Nat) (in_speech hyp : Nat → Bool) :
    utteranceProtocol (transcribe samplesSize in_speech hyp) false = some false := by
  have h : ∀ l, utteranceProtocol (DecoderCall.ps_start_utt :: l) false =
      utteranceProtocol l true := fun _ => rfl
  unfold transcribe
  rw [h, utteranceProtocol_transcribeLoop, utteranceProtocol_transcribeEnd]

theorem everyChunkIsClassified_transcribeEnd (numberOfPartitions : Nat) (hyp : Nat → Bool)
    (utt_started : Bool) :
    everyChunkIsClassified (transcribeEnd numberOfPartitions hyp utt_started) = true := by
  unfold transcribeEnd
  cases utt_started <;> cases hyp (numberOfPartitions + 1) <;> simp [everyChunkIsClassified]

theorem everyChunkIsClassified_transcribeLoop (numberOfPartitions remainingSamples : Nat)
    (in_speech hyp : Nat → Bool) (tail : List DecoderCall) :
    ∀ (indices : List Nat) (sample : Nat) (utt_started : Bool),
      everyChunkIsClassified
          ((transcribeLoop numberOfPartitions remainingSamples in_speech hyp indices sample
              utt_started).2 ++ tail) =
        everyChunkIsClassified tail
  | [], sample, utt_started => by simp [transcribeLoop]
  | i :: rest, sample, utt_started => by
    have ih := everyChunkIsClassified_transcribeLoop numberOfPartitions remainingSamples
      in_speech hyp tail rest (sample + 2048)
    rw [transcribeLoop]
    by_cases hi : i = numberOfPartitions
    · subst hi
      cases hb : in_speech i <;> cases utt_started <;> cases hh : hyp i <;>
        simp [hb, hh, everyChunkIsClassified, ih]
    · cases hb : in_speech i <;> cases utt_started <;> cases hh : hyp i <;>
        simp [hi, hb, hh, everyChunkIsClassified, ih]

/-- In a whole run of `transcribe` every chunk fed is classified at once. -/
theorem everyChunkIsClassified_transcribe (samplesSize : Nat) (in_speech hyp : Nat → Bool) :
    everyChunkIsClassified (transcribe samplesSize in_speech hyp) = true := by
  have h : ∀ l, everyChunkIsClassified (DecoderCall.ps_start_utt :: l) =
      everyChunkIsClassified l := fun _ => rfl
  unfold transcribe
  rw [h, everyChunkIsClassified_transcribeLoop, everyChunkIsClassified_transcribeEnd]

/-- C11: with the classification of the chunks as input, the utterances `transcribe` closes
(an end of utterance followed by the retrieval of the hypothesis) are one at each change from
speech to silence and one more at the end of the stream exactly when the last chunk is speech;
each is emitted through `printRecognisedWordAsSRT` exactly when the decoder has a hypothesis
for it, and each but the one at the end of the stream is followed by the start of a new
utterance; their number is the number of maximal runs of speech chunks; the calls keep the
protocol of the decoder and every chunk fed is classified at once; and for silence, speech, speech, silence, speech, silence exactly two
utterances are closed, at chunks 4 and 6. -/
theorem closed_utterances_are_speech_runs (samplesSize : Nat) (in_speech hyp : Nat → Bool) :
    closedUtterances (transcribe samplesSize in_speech hyp) 0 =
        expectedCloses hyp false 0 ((List.range (samplesSize / 2048 + 1)).map in_speech) ∧
      (closedUtterances (transcribe samplesSize in_speech hyp) 0).map ClosedUtterance.chunk =
        closePoints false 0 ((List.range (samplesSize / 2048 + 1)).map in_speech) ∧
      (closedUtterances (transcribe samplesSize in_speech hyp) 0).length =
        speechRuns ((List.range (samplesSize / 2048 + 1)).map in_speech) ∧
      utteranceProtocol (transcribe samplesSize in_speech hyp) false = some false ∧
      everyChunkIsClassified (transcribe samplesSize in_speech hyp) = true ∧
      ((List.range (samplesSize / 2048 + 1)).map in_speech =
          [false, true, true, false, true, false] →
        closedUtterances (transcribe samplesSize in_speech hyp) 0 =
          [⟨4, hyp 3, true⟩, ⟨6, hyp 5, true⟩]) := by
  have h := closedUtterances_transcribe samplesSize in_speech hyp
  have hm := expectedCloses_map_chunk hyp
    ((List.range (samplesSize / 2048 + 1)).map in_speech) false 0
  refine ⟨h, ?_, ?_, utteranceProtocol_transcribe samplesSize in_speech hyp,
    everyChunkIsClassified_transcribe samplesSize in_speech hyp, ?_⟩
  · rw [h, hm]
  · have hl := congrArg List.length hm
    rw [List.length_map, closePoints_length] at hl
    rw [h, hl]
    simp [speechRuns]
  · intro hc
    rw [h, hc]
    rfl

theorem closed_utterances_are_speech_runs_witness :
    (List.range ((5 * 2048 + 100) / 2048 + 1)).map
        (fun i => exampleClassification.getD i false) =
        [false, true, true, false, true, false] ∧
      closedUtterances (transcribe (5 * 2048 + 100)
        (fun i => exampleClassification.getD i false) (fun i => decide (i = 3))) 0 =
        [⟨4, decide (3 = 3), true⟩, ⟨6, decide (5 = 3), true⟩] :=
  ⟨by decide,
    (closed_utterances_are_speech_runs (5 * 2048 + 100)
      (fun i => exampleClassification.getD i false) (fun i => decide (i = 3))).2.2.2.2.2
        (by decide)⟩

/-- C20: on a buffer of `n` samples `transcribe` feeds the decoder `n / 2048 + 1` chunks;
chunk `i` starts at offset `2048 * i`, has 2048 samples, except the last which has
`n % 2048`; every chunk ends inside the buffer, the lengths add up to `n`, and the sample
positions of the chunks, one chunk after the other, are `0, 1, .., n - 1`. -/
theorem transcribe_feeds_every_sample_once (samplesSize : Nat) (in_speech hyp : Nat → Bool) :
    fedChunks (transcribe samplesSize in_speech hyp) =
        (List.range (samplesSize / 2048 + 1)).map (fun i =>
          (2048 * i, if i = samplesSize / 2048 then samplesSize % 2048 else 2048)) ∧
      (fedChunks (transcribe samplesSize in_speech hyp)).length = samplesSize / 2048 + 1 ∧
      (∀ c ∈ fedChunks (transcribe samplesSize in_speech hyp), c.1 + c.2 ≤ samplesSize) ∧
      ((fedChunks (transcribe samplesSize in_speech hyp)).map Prod.snd).sum = samplesSize ∧
      ((fedChunks (transcribe samplesSize in_speech hyp)).map
        (fun c => List.range' c.1 c.2)).flatten = List.range samplesSize := by
  have h := fedChunks_transcribe samplesSize in_speech hyp
  have hdm := Nat.div_add_mod samplesSize 2048
  have hflat : ((fedChunks (transcribe samplesSize in_speech hyp)).map
      (fun c => List.range' c.1 c.2)).flatten = List.range samplesSize := by
    rw [h, List.map_map, List.range_succ, List.map_append, List.flatten_append]
    have hfull : (List.range (samplesSize / 2048)).map
        ((fun c : Nat × Nat => List.range' c.1 c.2) ∘ fun i =>
          (2048 * i, if i = samplesSize / 2048 then samplesSize % 2048 else 2048)) =
        (List.range (samplesSize / 2048)).map (fun i => List.range' (2048 * i) 2048) := by
      apply List.map_congr_left
      intro i hi
      have hlt : i < samplesSize / 2048 := List.mem_range.mp hi
      have hne : ¬ i = samplesSize / 2048 := by omega
      simp [hne]
    rw [hfull, flatten_full_chunks]
    simp only [List.map_cons, List.map_nil, List.flatten_cons, List.flatten_nil,
      List.append_nil, Function.comp_apply, if_true]
    have ha := List.range'_append 0 (2048 * (samplesSize / 2048)) (samplesSize % 2048) 1
    simp only [Nat.zero_add, Nat.one_mul] at ha
    rw [ha, List.range_eq_range']
    congr 1
    omega
  refine ⟨h, ?_, ?_, ?_, hflat⟩
  · rw [h]
    simp
  · intro c hc
    rw [h, List.mem_map] at hc
    obtain ⟨i, hi, rfl⟩ := hc
    have hlt : i < samplesSize / 2048 + 1 := List.mem_range.mp hi
    by_cases he : i = samplesSize / 2048
    · subst he
      simp only [if_true]
      omega
    · simp only [he, if_false]
      omega
  · have hl := congrArg List.length hflat
    rw [List.length_flatten, List.map_map, List.length_range] at hl
    have hs : (fedChunks (transcribe samplesSize in_speech hyp)).map Prod.snd =
        (fedChunks (transcribe samplesSize in_speech hyp)).map
          (List.length ∘ fun c => List.range' c.1 c.2) := by
      apply List.map_congr_left
      intro c _
      simp
    rw [hs]
    exact hl

/-! ## Theorems: forced alignment, cue by cue -/

theorem alignWithFSG_append (run : SubtitleItem → SubtitleItem) (psIsNull : Bool) :
    ∀ (before rest : List FsgCue), (alignWithFSG run psIsNull before).1 = false →
      alignWithFSG run psIsNull (before ++ rest) =
        ((alignWithFSG run psIsNull rest).1,
          (alignWithFSG run psIsNull before).2 ++ (alignWithFSG run psIsNull rest).2)
  | [], _, _ => rfl
  | cue :: before, rest, h => by
    have ih := alignWithFSG_append run psIsNull before rest
    rw [alignWithFSG] at h
    rw [List.cons_append, alignWithFSG, alignWithFSG]
    cases hE : cue.dialogueEmpty <;> cases hc : cue.subConfig <;> cases hh : cue.hyp <;>
      cases hp : psIsNull <;> simp only [hE, hc, hh, hp] at h ih ⊢ <;> simp at h ⊢ <;>
      simp [ih h]

/-- C12, as the code has it: when the configuration of a cue with a dialogue cannot be
created, `alignWithFSG` returns at that cue. The cues before it keep what their alignment
gave them, the failing cue keeps the approximate times `currentSub::run` assigned, and the
cues after it are left as they were: none of them is decoded or aligned. -/
theorem config_failure_ends_the_run (run : SubtitleItem → SubtitleItem) (psIsNull : Bool)
    (before : List FsgCue) (cue : FsgCue) (later : List FsgCue)
    (hdialogue : cue.dialogueEmpty = false) (hfail : cue.subConfig = none)
    (hbefore : (alignWithFSG run psIsNull before).1 = false) :
    alignWithFSG run psIsNull (before ++ cue :: later) =
      (true, (alignWithFSG run psIsNull before).2 ++ run cue.sub :: later.map FsgCue.sub) := by
  rw [alignWithFSG_append run psIsNull before _ hbefore]
  rw [alignWithFSG]
  simp [hdialogue, hfail]

theorem config_failure_ends_the_run_witness :
    failingCue.dialogueEmpty = false ∧ failingCue.subConfig = none ∧
      (alignWithFSG id false [tomatoCue]).1 = false ∧
      alignWithFSG id false ([tomatoCue] ++ failingCue :: [tomatoCue]) =
        (true, (alignWithFSG id false [tomatoCue]).2 ++
          id failingCue.sub :: [tomatoCue].map FsgCue.sub) :=
  ⟨by decide, by decide, by decide!,
    config_failure_ends_the_run id false [tomatoCue] failingCue [tomatoCue] (by decide)
      (by decide) (by decide!)⟩

/-- C12 fails as stated: after a cue whose configuration cannot be created, the next cue,
which has a dialogue and decodes well on its own, is left untouched and the run has ended. -/
theorem later_cue_is_not_aligned_after_config_failure :
    alignWithFSG id false [failingCue, tomatoCue] = (true, [musicSub, tomatoSub]) ∧
      alignWithFSG id false [tomatoCue] =
        (false, [(findAndSetWordTimes 100 tomatoSegments tomatoSub).2]) ∧
      (findAndSetWordTimes 100 tomatoSegments tomatoSub).2 ≠ tomatoSub := by
  decide!

end CCAligner
